import Mathlib

/-!
Verification development for the G-vector construction of sirius::Gvec
(src/src/gvec.h).  The constructor pipeline is embedded shallowly:

  enumeration of non-empty z-columns over the FFT grid box
  -> swap of the (0,0) column to the front and descending sort by length
  -> greedy distribution of columns over ranks
  -> reordering of columns per rank
  -> full-index table build and the mandatory zero-vector check
  -> shell classification by quantized length
  -> FFT-communicator aggregated tables, per-column offsets, slab table.

Numeric conventions of the embedding:
  * C++ doubles are modelled as exact rationals.  The standard Rat type of
    this toolchain does not reduce in the kernel, so a small self-contained
    normalized rational type QVal (built from Int and Nat primitives,
    normalized with Nat.gcd) is used instead; double rounding is not
    modelled.
  * The cutoff test vgk.length() <= Gmax is rendered exactly as
    normSq(vgk) <= Gmax * Gmax, which is equivalent over the reals for a
    non-negative cutoff.
  * size_t(len * 1e10) is rendered as the exact integer square root
    computation floor(sqrt(10^20 * num * den)) / den on a normalized
    rational num/den; the integer square root is computed by a fuel-based
    binary search (the library Nat.sqrt does not reduce in the kernel).
  * TERMINATE(...) aborts are modelled by returning none; plain assert(...)
    statements (disabled in NDEBUG release builds) are modelled as no-ops.
-/

/-- Exact rational scalar standing in for a C++ double.  Kept normalized by
the smart constructor qnorm below (num and den coprime, den positive). -/
structure QVal where
  num : Int
  den : Nat
deriving DecidableEq

/-- Normalize a fraction n / d by the gcd of the absolute numerator and the
denominator; a zero gcd (only possible for 0 / 0) collapses to 0 / 1. -/
def qnorm (n : Int) (d : Nat) : QVal :=
  let g : Nat := n.natAbs.gcd d
  if g = 0 then ⟨0, 1⟩ else ⟨n / (g : Int), d / g⟩

/-- The rational zero. -/
def qzero : QVal := ⟨0, 1⟩

/-- Rational addition. -/
def qadd (a b : QVal) : QVal := qnorm (a.num * b.den + b.num * a.den) (a.den * b.den)

/-- Rational multiplication. -/
def qmul (a b : QVal) : QVal := qnorm (a.num * b.num) (a.den * b.den)

/-- Embed an integer as a rational. -/
def qofInt (n : Int) : QVal := ⟨n, 1⟩

/-- Rational comparison a <= b by cross multiplication (denominators are
non-negative). -/
def qleb (a b : QVal) : Bool := decide (a.num * (b.den : Int) ≤ b.num * (a.den : Int))

/-- A vector of three rational scalars (vector3d of double). -/
structure QVec where
  x : QVal
  y : QVal
  z : QVal
deriving DecidableEq

/-- Componentwise vector addition. -/
def qvecAdd (a b : QVec) : QVec := ⟨qadd a.x b.x, qadd a.y b.y, qadd a.z b.z⟩

/-- The zero vector of rationals. -/
def qvecZero : QVec := ⟨qzero, qzero, qzero⟩

/-- A 3x3 rational matrix, stored as rows (matrix3d of double: the
reciprocal lattice vectors). -/
structure QMat where
  r0 : QVec
  r1 : QVec
  r2 : QVec
deriving DecidableEq

/-- Dot product of two rational vectors. -/
def qdot (a b : QVec) : QVal := qadd (qadd (qmul a.x b.x) (qmul a.y b.y)) (qmul a.z b.z)

/-- Matrix times vector. -/
def qmulVec (M : QMat) (v : QVec) : QVec := ⟨qdot M.r0 v, qdot M.r1 v, qdot M.r2 v⟩

/-- Squared Cartesian length of a rational vector. -/
def qnormSq (v : QVec) : QVal := qdot v v

/-- Embed an integer triple as a rational vector. -/
def qvecOfInt (i j k : Int) : QVec := ⟨qofInt i, qofInt j, qofInt k⟩

/-- Modelled from the spec: FFT3D_grid (fft3d_grid.h is not under src/).
The grid is an axis-aligned integer box given by inclusive per-axis limits
(spec section 3); limits(d).first <= 0 <= limits(d).second for sane grids. -/
structure FFT3DGrid where
  lim0 : Int × Int
  lim1 : Int × Int
  lim2 : Int × Int
deriving DecidableEq

/-- Number of grid points along the z axis (size(2) = max - min + 1). -/
def gridSize2 (g : FFT3DGrid) : Nat := (g.lim2.2 - g.lim2.1 + 1).toNat

/-- Modelled from the spec: FFT3D_grid::gvec_by_coord for the z axis
(fft3d_grid.h is not under src/).  A grid coordinate iz in [0, size) maps to
the signed reciprocal index iz when iz <= limits(2).second and to iz - size
otherwise (FFT frequency order).  This mapping is forced jointly by the
spec's reduction semantics for the central stick (z restricted to
[0, limits(2).second], spec section 4.1) and by the reverse mapping
Gvec::index_by_gvec in src/src/gvec.h, which places a vector with
z-coordinate z at column position z when z >= 0 and z + column size when
z < 0. -/
def gvecByCoord2 (g : FFT3DGrid) (iz : Nat) : Int :=
  if (iz : Int) ≤ g.lim2.2 then (iz : Int) else (iz : Int) - (gridSize2 g : Int)

/-- Modelled from the spec: FFT3D_grid::coord_by_gvec for the z axis, the
inverse of gvecByCoord2: a signed reciprocal index z maps to the grid
coordinate z when z >= 0 and z + size when z < 0. -/
def coordByGvec2 (g : FFT3DGrid) (z : Int) : Int :=
  if z < 0 then z + (gridSize2 g : Int) else z

/-- Modelled from the spec: z_column_descriptor (not under src/; spec
section 3): a column is identified by its (x, y) integer pair, owns the
ordered sequence of z-indices inside the cutoff, and owns an offset inside
its owning FFT rank's contiguous buffer (assigned later; initially 0). -/
structure ZColumn where
  x : Int
  y : Int
  z : List Int
  offset : Nat
deriving DecidableEq, Inhabited

/-- Length of a column's z-sequence (z.size()). -/
def colLen (c : ZColumn) : Nat := c.z.length

/-- Exact rendering of the cutoff test vgk.length() <= Gmax for a
non-negative cutoff: normSq(vgk) <= Gmax * Gmax. -/
def insideCutoff (Gmax : QVal) (v : QVec) : Bool := qleb (qnormSq v) (qmul Gmax Gmax)

/-- Largest z grid coordinate scanned for the column (i, j): the full range
size(2) - 1 in general, limits(2).second for the central stick when
G-vectors are reduced by inversion symmetry (gvec.h lines 210-215). -/
def zmaxFor (g : FFT3DGrid) (reduce : Bool) (i j : Int) : Nat :=
  if reduce ∧ i = 0 ∧ j = 0 then g.lim2.2.toNat else gridSize2 g - 1

/-- The z-sequence collected for the column (i, j): z grid coordinates
iz = 0, 1, ..., zmax in order, each mapped to its signed index and kept when
the corresponding G+k vector lies inside the cutoff (gvec.h lines 216-226). -/
def zColFor (vk : QVec) (M : QMat) (Gmax : QVal) (g : FFT3DGrid) (reduce : Bool)
    (i j : Int) : List Int :=
  (List.range (zmaxFor g reduce i j + 1)).filterMap (fun iz =>
    let k := gvecByCoord2 g iz
    if insideCutoff Gmax (qmulVec M (qvecAdd (qvecOfInt i j k) vk)) then some k else none)

/-- The (i, j) pairs of the double loop over the first two grid axes, in
traversal order (i outer ascending, j inner ascending). -/
def gridPairs (g : FFT3DGrid) : List (Int × Int) :=
  ((List.range ((g.lim0.2 - g.lim0.1 + 1).toNat)).map (fun t => g.lim0.1 + (t : Int))).flatMap
    (fun i => ((List.range ((g.lim1.2 - g.lim1.1 + 1).toNat)).map (fun t => g.lim1.1 + (t : Int))).map
      (fun j => (i, j)))

/-- Accumulator of the enumeration loop: the set of (x, y) pairs already
marked in non_zero_columns, the columns collected so far, and the running
total vector count num_gvec_. -/
structure EnumState where
  claimed : List (Int × Int)
  cols : List ZColumn
  numGvec : Nat

/-- One iteration of the enumeration loop body for a pair (i, j): a column
is retained iff its z-sequence is non-empty and (i, j) is not yet marked;
on acceptance (i, j) is marked, and (-i, -j) as well when reduction is
active (gvec.h lines 228-236). -/
def enumStep (vk : QVec) (M : QMat) (Gmax : QVal) (g : FFT3DGrid) (reduce : Bool)
    (st : EnumState) (p : Int × Int) : EnumState :=
  let zcol := zColFor vk M Gmax g reduce p.1 p.2
  if zcol ≠ [] ∧ p ∉ st.claimed then
    { claimed := st.claimed ++ [p] ++ (if reduce then [(-p.1, -p.2)] else []),
      cols := st.cols ++ [⟨p.1, p.2, zcol, 0⟩],
      numGvec := st.numGvec + zcol.length }
  else st

/-- The enumeration phase of the constructor (gvec.h lines 202-238). -/
def enumerate (vk : QVec) (M : QMat) (Gmax : QVal) (g : FFT3DGrid) (reduce : Bool) :
    EnumState :=
  (gridPairs g).foldl (enumStep vk M Gmax g reduce) ⟨[], [], 0⟩

/-- Swap of the first column with x = y = 0 to position 0 of the column
list (gvec.h lines 240-246). -/
def swapZeroCol (cols : List ZColumn) : List ZColumn :=
  match cols.findIdx? (fun c => c.x = 0 && c.y = 0) with
  | none => cols
  | some p => (cols.set 0 (cols.getD p default)).set p (cols.getD 0 default)

/-- Model of std::sort with the comparator a.z.size() > b.z.size()
(gvec.h lines 248-253).  std::sort leaves the relative order of
equal-length columns unspecified; it is modelled as a stable descending
sort (the behavior of the common library implementations on short ranges). -/
def sortDescByLen (l : List ZColumn) : List ZColumn :=
  List.insertionSort (fun a b => colLen b ≤ colLen a) l

/-- The column reordering performed between enumeration and distribution:
the (0, 0) column, if present, is swapped to the front, and the columns
from position 1 onward are sorted by decreasing z-sequence length. -/
def sortColumns (cols : List ZColumn) : List ZColumn :=
  match swapZeroCol cols with
  | [] => []
  | c :: rest => c :: sortDescByLen rest

/-- Model of std::min_element over b :: l with the comparator
f a < f b: returns the first element attaining the minimum of f. -/
def minElt (f : Nat → Nat) (b : Nat) : List Nat → Nat
  | [] => b
  | a :: l => if f a < f b then minElt f a l else minElt f b l

/-- State of the greedy distribution loop: the per-rank G-vector counts
(gvec_distr_.counts), the per-rank column counts (zcol_distr_.counts), the
current candidate rank list, and the rank assigned to each processed column
in order (recording the zcols_local bookkeeping). -/
structure DistState where
  gcounts : List Nat
  zcounts : List Nat
  cands : List Nat
  assign : List Nat
deriving DecidableEq

/-- The candidate list seen by one loop iteration: refilled to 0, 1, ...,
R-1 when empty (gvec.h lines 263-267). -/
def effCands (R : Nat) (cands : List Nat) : List Nat :=
  if cands = [] then List.range R else cands

/-- One iteration of the distribution loop (gvec.h lines 262-282): pick the
candidate rank with the minimum running G-vector count (first minimum, i.e.
lowest rank id on ties, as std::min_element returns), assign the column to
it, add the column's z-length to its count, and erase it from the candidate
list. -/
def distStep (R : Nat) (st : DistState) (len : Nat) : DistState :=
  match effCands R st.cands with
  | [] => st
  | c :: cs =>
    let r := minElt (fun i => st.gcounts.getD i 0) c cs
    { gcounts := st.gcounts.set r (st.gcounts.getD r 0 + len),
      zcounts := st.zcounts.set r (st.zcounts.getD r 0 + 1),
      cands := (c :: cs).erase r,
      assign := st.assign ++ [r] }

/-- Initial distribution state: all counts zero, candidate list empty (it
is refilled at the top of the first iteration). -/
def distInit (R : Nat) : DistState :=
  ⟨List.replicate R 0, List.replicate R 0, [], []⟩

/-- The distribution loop over the (pre-sorted) column lengths. -/
def distribute (R : Nat) (lens : List Nat) : DistState :=
  lens.foldl (distStep R) (distInit R)

/-- Rebuild of z_columns_ from zcols_local: all columns of rank 0 in
assignment order, then rank 1, and so on (gvec.h lines 286-290). -/
def reorder (R : Nat) (cols : List ZColumn) (assign : List Nat) : List ZColumn :=
  (List.range R).flatMap (fun r =>
    (cols.zip assign).filterMap (fun p => if p.2 = r then some p.1 else none))

/-- Modelled from the spec: block_data_descriptor (not under src/; spec
section 3): a per-rank count table together with the derived offsets, the
offsets being the exclusive prefix sums of the counts (calc_offsets). -/
structure BlockData where
  counts : List Nat
  offsets : List Nat
deriving DecidableEq

/-- Exclusive prefix sums of a count list. -/
def exclScan (l : List Nat) : List Nat :=
  (List.range l.length).map (fun i => (l.take i).sum)

/-- Build a block data descriptor from its counts (counts plus
calc_offsets). -/
def mkBlockData (counts : List Nat) : BlockData := ⟨counts, exclScan counts⟩

/-- The full-index table built column by column: for the column with index
i and each position j inside its z-sequence, the packed address
(i << 12) + j is appended (gvec.h lines 296-306); i is the running column
counter. -/
def buildFullIndexAux (i : Nat) : List ZColumn → List Nat
  | [] => []
  | c :: cs => (List.range c.z.length).map (fun j => i * 4096 + j) ++ buildFullIndexAux (i + 1) cs

/-- gvec_full_index_: the packed address of every global G-vector index in
order. -/
def buildFullIndex (cols : List ZColumn) : List Nat := buildFullIndexAux 0 cols

/-- Gvec::gvec_by_full_index: decode a packed address (column index from
the high bits: idx >> 12; position in the column from the low 12 bits:
idx & 0xFFF) and read the integer G-vector (x, y, z[j]). -/
def gvecByFullIndex (cols : List ZColumn) (idx : Nat) : Int × Int × Int :=
  let j := idx % 4096
  let i := idx / 4096
  let c := cols.getD i default
  (c.x, c.y, c.z.getD j 0)

/-- Binary search step for the integer square root: maintains
lo * lo <= n < hi * hi. -/
def isqrtAux : Nat → Nat → Nat → Nat → Nat
  | 0, lo, _, _ => lo
  | fuel + 1, lo, hi, n =>
    if hi ≤ lo + 1 then lo
    else
      let mid := (lo + hi) / 2
      if mid * mid ≤ n then isqrtAux fuel mid hi n else isqrtAux fuel lo mid n

/-- Integer square root floor(sqrt(n)) by binary search; 140 halvings of
[0, n+1) suffice for every n below 2^138, far beyond any value arising
here.  (The library Nat.sqrt is not used because it does not reduce in the
kernel.) -/
def isqrt (n : Nat) : Nat := isqrtAux 140 0 (n + 1) n

/-- Exact rendering of the shell quantization key size_t(len * 1e10) with
len = sqrt(q) for a normalized rational q = num / den:
floor(1e10 * sqrt(num / den)) = floor(sqrt(10^20 * num * den)) / den. -/
def lenKey (q : QVal) : Nat :=
  isqrt ((100000000000000000000 * q.num).toNat * q.den) / q.den

/-- Insert a key into a strictly increasing key list, keeping it strictly
increasing (duplicates collapse): the model of std::map key insertion. -/
def insKey (k : Nat) : List Nat → List Nat
  | [] => [k]
  | x :: xs => if k < x then k :: x :: xs else if k = x then x :: xs else x :: insKey k xs

/-- The strictly increasing list of distinct shell keys, as iterated by the
ordered std::map gsh (gvec.h lines 315-326). -/
def sortedKeys (keys : List Nat) : List Nat :=
  keys.foldl (fun acc k => insKey k acc) []

/-- Cartesian G+k vector of the global index ig (Gvec::gkvec_cart):
M * (G + vk) with G decoded through the full-index table. -/
def gkCartOf (vk : QVec) (M : QMat) (cols : List ZColumn) (fullIdx : List Nat)
    (ig : Nat) : QVec :=
  let G := gvecByFullIndex cols (fullIdx.getD ig 0)
  qmulVec M (qvecAdd (qvecOfInt G.1 G.2.1 G.2.2) vk)

/-- The quantized length key of every global G-vector index in order. -/
def keysOf (vk : QVec) (M : QMat) (cols : List ZColumn) (fullIdx : List Nat)
    (numGvec : Nat) : List Nat :=
  (List.range numGvec).map (fun ig => lenKey (qnormSq (gkCartOf vk M cols fullIdx ig)))

/-- The represented shell length of a key: key * 1e-10, exactly. -/
def shellLenOfKey (k : Nat) : QVal := qmul (qofInt k) ⟨1, 10000000000⟩

/-- The communicator interface assumed by Gvec: a size and this process's
rank (spec section 6). -/
structure Communicator where
  size : Nat
  rank : Nat
deriving DecidableEq

/-- Gvec::build_fft_distr (gvec.h lines 109-133): fails fast (TERMINATE)
when the fine-grained rank count R is not a multiple of the FFT
communicator size F; otherwise each FFT rank aggregates the counts of its
nrc = R / F consecutive fine-grained ranks, and offsets are derived. -/
def buildFftDistr (F R : Nat) (gvecCounts zcolCounts : List Nat) :
    Option (BlockData × BlockData) :=
  let nrc := R / F
  if R ≠ nrc * F then none
  else
    some
      (mkBlockData ((List.range F).map (fun rank =>
        ((List.range nrc).map (fun i => gvecCounts.getD (rank * nrc + i) 0)).sum)),
       mkBlockData ((List.range F).map (fun rank =>
        ((List.range nrc).map (fun i => zcolCounts.getD (rank * nrc + i) 0)).sum)))

/-- Inner loop of Gvec::calc_offsets for one FFT rank (gvec.h lines
138-148): walk this rank's columns in global order, store the running
offset in each column, and accumulate the column length.  The trailing
assert (disabled in release builds) is modelled as a no-op. -/
def applyColOffsetsRank (cols : List ZColumn) (start cnt : Nat) : List ZColumn :=
  ((List.range cnt).foldl (fun (p : List ZColumn × Nat) i =>
      let icol := start + i
      let c := p.1.getD icol default
      (p.1.set icol ⟨c.x, c.y, c.z, p.2⟩, p.2 + c.z.length)) (cols, 0)).1

/-- Gvec::calc_offsets (gvec.h lines 136-149): per-column offsets inside
each FFT rank's contiguous buffer. -/
def applyColOffsets (F : Nat) (zfft : BlockData) (cols : List ZColumn) : List ZColumn :=
  (List.range F).foldl (fun cs rank =>
    applyColOffsetsRank cs (zfft.offsets.getD rank 0) (zfft.counts.getD rank 0)) cols

/-- Gvec::pile_gvec (gvec.h lines 151-179): fails fast (TERMINATE) on the
same divisibility condition as build_fft_distr, then builds the slab table
of the calling rank's own FFT group: the vector counts of its nrc
constituent fine-grained ranks with prefix offsets.  The trailing assert is
modelled as a no-op. -/
def pileGvec (F Frank R : Nat) (gvecCounts : List Nat) : Option BlockData :=
  let nrc := R / F
  if R ≠ nrc * F then none
  else some (mkBlockData ((List.range nrc).map (fun i => gvecCounts.getD (Frank * nrc + i) 0)))

/-- The fields of sirius::Gvec that the claims concern. -/
structure Gvec where
  vk : QVec
  latticeVectors : QMat
  reduceGvec : Bool
  numRanks : Nat
  fftComm : Communicator
  numGvec : Nat
  gvecFullIndex : List Nat
  gvecShell : List Nat
  numGvecShells : Nat
  gvecShellLen : List QVal
  zColumns : List ZColumn
  gvecDistr : BlockData
  gvecDistrFft : BlockData
  zcolDistr : BlockData
  zcolDistrFft : BlockData
  gvecFftSlab : BlockData
deriving DecidableEq

/-- The constructor stages up to the full-index table: enumeration, swap
and sort, distribution, per-rank reordering, and the packed index build
(gvec.h lines 202-306).  Returns the reordered columns, num_gvec_, the
distribution state, and gvec_full_index_. -/
def indexStage (vk : QVec) (M : QMat) (Gmax : QVal) (g : FFT3DGrid) (R : Nat)
    (reduce : Bool) : List ZColumn × Nat × DistState × List Nat :=
  let es := enumerate vk M Gmax g reduce
  let cols1 := sortColumns es.cols
  let st := distribute R (cols1.map colLen)
  let cols2 := reorder R cols1 st.assign
  (cols2, es.numGvec, st, buildFullIndex cols2)

/-- The Gvec constructor (gvec.h lines 189-345).  TERMINATE aborts are
modelled by returning none: the mandatory zero-vector check on the first
entry of the full-index table, and the rank-divisibility checks of
build_fft_distr and pile_gvec.  An empty G-vector set reads
gvec_full_index_(0) out of bounds and is modelled as a failure as well. -/
def construct (vk : QVec) (M : QMat) (Gmax : QVal) (g : FFT3DGrid) (R : Nat)
    (fftComm : Communicator) (reduce : Bool) : Option Gvec :=
  match indexStage vk M Gmax g R reduce with
  | (cols2, numGvec, st, fullIdx) =>
    match fullIdx with
    | [] => none
    | i0 :: _ =>
      let g0 := gvecByFullIndex cols2 i0
      if g0.1 ≠ 0 ∨ g0.2.1 ≠ 0 ∨ g0.2.2 ≠ 0 then none
      else
        let keys := keysOf vk M cols2 fullIdx numGvec
        let sk := sortedKeys keys
        let gvecDistr := mkBlockData st.gcounts
        let zcolDistr := mkBlockData st.zcounts
        match buildFftDistr fftComm.size R gvecDistr.counts zcolDistr.counts with
        | none => none
        | some (gfft, zfft) =>
          let cols3 := applyColOffsets fftComm.size zfft cols2
          match pileGvec fftComm.size fftComm.rank R gvecDistr.counts with
          | none => none
          | some slab =>
            some ⟨vk, M, reduce, R, fftComm, numGvec, fullIdx,
                  keys.map (fun k => sk.indexOf k), sk.length,
                  sk.map shellLenOfKey, cols3,
                  gvecDistr, gfft, zcolDistr, zfft, slab⟩

/-- Gvec::prepare (gvec.h lines 350-359): rebind the FFT communicator and
re-run build_fft_distr, calc_offsets and pile_gvec only. -/
def prepare (gv : Gvec) (comm : Communicator) : Option Gvec :=
  match buildFftDistr comm.size gv.numRanks gv.gvecDistr.counts gv.zcolDistr.counts with
  | none => none
  | some (gfft, zfft) =>
    let cols := applyColOffsets comm.size zfft gv.zColumns
    match pileGvec comm.size comm.rank gv.numRanks gv.gvecDistr.counts with
    | none => none
    | some slab =>
      some { gv with fftComm := comm, gvecDistrFft := gfft, zcolDistrFft := zfft,
                     zColumns := cols, gvecFftSlab := slab }

/-- The (x, y, z) payload of a column, without the mutable offset field. -/
def stripOffset (c : ZColumn) : Int × Int × List Int := (c.x, c.y, c.z)

/-- Claim C2's wording of the distribution, for comparison with the code:
every column is assigned to the rank currently holding the fewest vectors
among ALL ranks 0 .. R-1 (ties to the lowest rank id); returns the per-rank
counts and the per-column assignment. -/
def distributeSpecAssign (R : Nat) (lens : List Nat) : List Nat × List Nat :=
  lens.foldl (fun (p : List Nat × List Nat) len =>
    match List.range R with
    | [] => p
    | c :: cs =>
      let r := minElt (fun i => p.1.getD i 0) c cs
      (p.1.set r (p.1.getD r 0 + len), p.2 ++ [r])) (List.replicate R 0, [])

/-- Claim C4's wording of the column reordering, for comparison with the
code: the (0, 0) column is put at position 0 and all remaining columns are
stable-sorted by decreasing z-sequence length with ties in the original
discovery order. -/
def sortColumnsSpec (cols : List ZColumn) : List ZColumn :=
  cols.filter (fun c => c.x = 0 && c.y = 0) ++
    sortDescByLen (cols.filter (fun c => ¬(c.x = 0 && c.y = 0)))

/-! Concrete inputs used by witnesses and counterexamples. -/

/-- The identity reciprocal-lattice matrix. -/
def idMat : QMat := ⟨⟨qofInt 1, qzero, qzero⟩, ⟨qzero, qofInt 1, qzero⟩, ⟨qzero, qzero, qofInt 1⟩⟩

/-- A one-point grid box [0,0] x [0,0] x [0,0]. -/
def tinyGrid : FFT3DGrid := ⟨(0, 0), (0, 0), (0, 0)⟩

/-- A grid box [0,0] x [0,0] x [-1,1]: one column with three z-points. -/
def zedGrid : FFT3DGrid := ⟨(0, 0), (0, 0), (-1, 1)⟩

/-- A grid box [-2,2] x [0,0] x [0,0]: five one-point columns in a row. -/
def rowGrid : FFT3DGrid := ⟨(-2, 2), (0, 0), (0, 0)⟩

/-- The k-vector (1/2, 0, 0). -/
def vkHalf : QVec := ⟨⟨1, 2⟩, qzero, qzero⟩

/-! Generic helper lemmas. -/

theorem getD_set_self (l : List Nat) (i : Nat) (v : Nat) (h : i < l.length) :
    (l.set i v).getD i 0 = v := by
  induction l generalizing i with
  | nil => simp at h
  | cons c cs ih =>
    cases i with
    | zero => rfl
    | succ j => exact ih j (by simpa using h)

theorem getD_set_ne (l : List Nat) (i j : Nat) (v : Nat) (h : i ≠ j) :
    (l.set i v).getD j 0 = l.getD j 0 := by
  induction l generalizing i j with
  | nil => simp
  | cons c cs ih =>
    cases i with
    | zero =>
      cases j with
      | zero => exact absurd rfl h
      | succ j' => rfl
    | succ i' =>
      cases j with
      | zero => rfl
      | succ j' => exact ih i' j' (fun e => h (by rw [e]))

theorem sum_set_add (l : List Nat) (i c : Nat) (h : i < l.length) :
    (l.set i (l.getD i 0 + c)).sum = l.sum + c := by
  induction l generalizing i with
  | nil => simp at h
  | cons b bs ih =>
    cases i with
    | zero => simp [List.sum_cons]; omega
    | succ j =>
      have := ih j (by simpa using h)
      show (b :: bs.set j (bs.getD j 0 + c)).sum = (b :: bs).sum + c
      simp only [List.sum_cons] at *
      omega

theorem getD_replicate_zero (R i : Nat) : (List.replicate R 0).getD i 0 = 0 := by
  induction R generalizing i with
  | zero => simp
  | succ n ih =>
    cases i with
    | zero => rfl
    | succ j => exact ih j

/-! Claim C8: FFT-communicator divisibility. -/

theorem buildFftDistr_none_iff (F R : Nat) (gc zc : List Nat) :
    buildFftDistr F R gc zc = none ↔ ¬ (F ∣ R) := by
  by_cases hd : R = R / F * F
  · simp only [buildFftDistr, if_neg (not_not_intro hd)]
    constructor
    · intro h; exact absurd h (Option.some_ne_none _)
    · intro hn
      exact absurd ⟨R / F, by rw [Nat.mul_comm]; exact hd⟩ hn
  · simp only [buildFftDistr, if_pos hd]
    constructor
    · intro _ hdvd
      exact hd (Nat.div_mul_cancel hdvd).symm
    · intro _; trivial

/-- Claim C8: whenever the FFT-communicator size F does not evenly divide
the fine-grained rank count R, building the FFT-aggregated tables fails
fast with a fatal error (modelled as none), both inside build_fft_distr
itself and as called during construction and during prepare; when F
divides R, build_fft_distr succeeds for any rank count and any column
sizes. -/
theorem C8_fft_divisibility (F R : Nat) (gc zc : List Nat) :
    (buildFftDistr F R gc zc = none ↔ ¬ (F ∣ R)) ∧
    (∀ (gv : Gvec) (comm : Communicator), comm.size = F → gv.numRanks = R →
      ¬ (F ∣ R) → prepare gv comm = none) ∧
    (∀ vk M Gmax g (comm : Communicator) red, comm.size = F → ¬ (F ∣ R) →
      construct vk M Gmax g R comm red = none) := by
  refine ⟨buildFftDistr_none_iff F R gc zc, ?_, ?_⟩
  · intro gv comm hs hn hdvd
    unfold prepare
    rw [hs, hn, (buildFftDistr_none_iff F R _ _).mpr hdvd]
  · intro vk M Gmax g comm red hs hdvd
    unfold construct
    rcases indexStage vk M Gmax g R red with ⟨cols2, numGvec, st, fullIdx⟩
    cases fullIdx with
    | nil => rfl
    | cons i0 rest =>
      simp only
      split
      · rfl
      · rw [hs, (buildFftDistr_none_iff F R _ _).mpr hdvd]

theorem C8_fft_divisibility_witness :
    buildFftDistr 2 3 [5, 5, 5] [1, 1, 1] = none ∧
    construct qvecZero idMat (qofInt 1) tinyGrid 3 ⟨2, 0⟩ false = none :=
  ⟨(C8_fft_divisibility 2 3 [5, 5, 5] [1, 1, 1]).1.mpr (by decide),
   (C8_fft_divisibility 2 3 [] []).2.2 qvecZero idMat (qofInt 1) tinyGrid ⟨2, 0⟩ false rfl
     (by decide)⟩

/-! Claim C7: the packed full-index round trip. -/

/-- Number of G-vectors in the columns before column i: the global index of
(column i, position 0). -/
def sumLenTake (cols : List ZColumn) (i : Nat) : Nat := ((cols.take i).map colLen).sum

theorem sumLenTake_cons_succ (c : ZColumn) (cs : List ZColumn) (i : Nat) :
    sumLenTake (c :: cs) (i + 1) = colLen c + sumLenTake cs i := by
  simp [sumLenTake]

theorem buildFullIndexAux_length (k : Nat) (cols : List ZColumn) :
    (buildFullIndexAux k cols).length = (cols.map colLen).sum := by
  induction cols generalizing k with
  | nil => rfl
  | cons c cs ih => simp [buildFullIndexAux, ih, colLen]

theorem exists_col_pos (cols : List ZColumn) (ig : Nat) (hig : ig < (cols.map colLen).sum) :
    ∃ i j, i < cols.length ∧ j < colLen (cols.getD i default) ∧ sumLenTake cols i + j = ig := by
  induction cols generalizing ig with
  | nil => simp at hig
  | cons c cs ih =>
    by_cases hc : ig < colLen c
    · exact ⟨0, ig, by simp, by simpa using hc, by simp [sumLenTake]⟩
    · have hig' : ig - colLen c < (cs.map colLen).sum := by
        simp only [List.map_cons, List.sum_cons] at hig
        omega
      obtain ⟨i, j, h1, h2, h3⟩ := ih (ig - colLen c) hig'
      exact ⟨i + 1, j, by simpa using h1, by simpa using h2,
        by rw [sumLenTake_cons_succ]; omega⟩

theorem colPos_unique (cols : List ZColumn) (i j i' j' : Nat)
    (hi : i < cols.length) (hj : j < colLen (cols.getD i default))
    (hi' : i' < cols.length) (hj' : j' < colLen (cols.getD i' default))
    (he : sumLenTake cols i + j = sumLenTake cols i' + j') : i = i' ∧ j = j' := by
  induction cols generalizing i i' with
  | nil => simp at hi
  | cons c cs ih =>
    cases i with
    | zero =>
      cases i' with
      | zero =>
        refine ⟨rfl, ?_⟩
        simpa [sumLenTake] using he
      | succ n' =>
        exfalso
        rw [sumLenTake_cons_succ] at he
        simp only [List.getD_cons_zero] at hj
        simp only [sumLenTake, List.take_zero, List.map_nil, List.sum_nil, Nat.zero_add] at he
        omega
    | succ n =>
      cases i' with
      | zero =>
        exfalso
        rw [sumLenTake_cons_succ] at he
        simp only [List.getD_cons_zero] at hj'
        simp only [sumLenTake, List.take_zero, List.map_nil, List.sum_nil, Nat.zero_add] at he
        omega
      | succ n' =>
        rw [sumLenTake_cons_succ, sumLenTake_cons_succ] at he
        have := ih n n' (by simpa using hi) (by simpa using hj)
          (by simpa using hi') (by simpa using hj') (by omega)
        exact ⟨by omega, this.2⟩

theorem getD_range_map (n j d : Nat) (f : Nat → Nat) (h : j < n) :
    ((List.range n).map f).getD j d = f j := by
  rw [List.getD_eq_getElem?_getD]
  simp [List.getElem?_map, List.getElem?_range h]

theorem getD_buildFullIndexAux (cols : List ZColumn) (k i j : Nat)
    (hi : i < cols.length) (hj : j < colLen (cols.getD i default)) :
    (buildFullIndexAux k cols).getD (sumLenTake cols i + j) 0 = (k + i) * 4096 + j := by
  induction cols generalizing k i with
  | nil => simp at hi
  | cons c cs ih =>
    cases i with
    | zero =>
      simp only [List.getD_cons_zero] at hj
      have hlen : ((List.range (colLen c)).map (fun j => k * 4096 + j)).length = colLen c := by
        simp
      show ((List.range c.z.length).map (fun j => k * 4096 + j) ++ buildFullIndexAux (k + 1) cs).getD
          (sumLenTake (c :: cs) 0 + j) 0 = (k + 0) * 4096 + j
      rw [List.getD_append _ _ _ _ (by simpa [sumLenTake, colLen] using hj)]
      simpa [sumLenTake] using getD_range_map (colLen c) j 0 (fun j => k * 4096 + j) hj
    | succ n =>
      show ((List.range c.z.length).map (fun j => k * 4096 + j) ++ buildFullIndexAux (k + 1) cs).getD
          (sumLenTake (c :: cs) (n + 1) + j) 0 = (k + (n + 1)) * 4096 + j
      rw [sumLenTake_cons_succ]
      have hidx : colLen c + sumLenTake cs n + j
          = ((List.range c.z.length).map (fun j => k * 4096 + j)).length + (sumLenTake cs n + j) := by
        simp only [List.length_map, List.length_range, colLen]
        omega
      rw [hidx, List.getD_append_right _ _ _ _ (Nat.le_add_right _ _), Nat.add_sub_cancel_left,
        ih (k + 1) n (by simpa using hi) (by simpa using hj)]
      ring_nf

/-- Claim C7: for every global index ig of the full-index table, decoding
the stored packed address (column index = high bits idx / 4096, position =
low 12 bits idx % 4096) yields exactly one valid (column, position) pair,
re-encoding that pair yields the packed address again, and the pair's
global enumeration position is ig itself, under the precondition that every
column has at most 4096 z-entries. -/
theorem C7_full_index_round_trip (cols : List ZColumn)
    (h4096 : ∀ c ∈ cols, colLen c ≤ 4096) (ig : Nat)
    (hig : ig < (buildFullIndex cols).length) :
    ∃ i j, i < cols.length ∧ j < colLen (cols.getD i default) ∧ j < 4096 ∧
      (buildFullIndex cols).getD ig 0 = i * 4096 + j ∧
      ((buildFullIndex cols).getD ig 0) / 4096 = i ∧
      ((buildFullIndex cols).getD ig 0) % 4096 = j ∧
      sumLenTake cols i + j = ig ∧
      (∀ i' j', i' < cols.length → j' < colLen (cols.getD i' default) →
        sumLenTake cols i' + j' = ig → i' = i ∧ j' = j) := by
  rw [buildFullIndex, buildFullIndexAux_length] at hig
  obtain ⟨i, j, hi, hj, hpos⟩ := exists_col_pos cols ig hig
  have hval : (buildFullIndex cols).getD ig 0 = i * 4096 + j := by
    rw [← hpos, buildFullIndex, getD_buildFullIndexAux cols 0 i j hi hj, Nat.zero_add]
  have hj4096 : j < 4096 := by
    have hmem : cols.getD i default ∈ cols := by
      rw [List.getD_eq_getElem cols default hi]
      exact List.getElem_mem hi
    have := h4096 _ hmem
    omega
  refine ⟨i, j, hi, hj, hj4096, hval, ?_, ?_, hpos, ?_⟩
  · rw [hval]; omega
  · rw [hval]; omega
  · intro i' j' hi' hj' hpos'
    exact colPos_unique cols i' j' i j hi' hj' hi hj (by omega)

theorem C7_full_index_round_trip_witness :
    ∃ i j, i < ([⟨0, 0, [0, 7], 0⟩, ⟨1, 2, [3], 0⟩] : List ZColumn).length ∧
      j < colLen (([⟨0, 0, [0, 7], 0⟩, ⟨1, 2, [3], 0⟩] : List ZColumn).getD i default) ∧ j < 4096 ∧
      (buildFullIndex [⟨0, 0, [0, 7], 0⟩, ⟨1, 2, [3], 0⟩]).getD 2 0 = i * 4096 + j ∧
      ((buildFullIndex [⟨0, 0, [0, 7], 0⟩, ⟨1, 2, [3], 0⟩]).getD 2 0) / 4096 = i ∧
      ((buildFullIndex [⟨0, 0, [0, 7], 0⟩, ⟨1, 2, [3], 0⟩]).getD 2 0) % 4096 = j ∧
      sumLenTake [⟨0, 0, [0, 7], 0⟩, ⟨1, 2, [3], 0⟩] i + j = 2 ∧
      (∀ i' j', i' < ([⟨0, 0, [0, 7], 0⟩, ⟨1, 2, [3], 0⟩] : List ZColumn).length →
        j' < colLen (([⟨0, 0, [0, 7], 0⟩, ⟨1, 2, [3], 0⟩] : List ZColumn).getD i' default) →
        sumLenTake [⟨0, 0, [0, 7], 0⟩, ⟨1, 2, [3], 0⟩] i' + j' = 2 → i' = i ∧ j' = j) :=
  C7_full_index_round_trip [⟨0, 0, [0, 7], 0⟩, ⟨1, 2, [3], 0⟩] (by decide) 2 (by decide)

/-! Claim C9: prepare recomputes only the FFT-aggregated data. -/

theorem map_stripOffset_set (l : List ZColumn) (i : Nat) (off : Nat) :
    (l.set i ⟨(l.getD i default).x, (l.getD i default).y, (l.getD i default).z, off⟩).map
      stripOffset = l.map stripOffset := by
  induction l generalizing i with
  | nil => rfl
  | cons c cs ih =>
    cases i with
    | zero => simp [stripOffset]
    | succ n =>
      have hg : (c :: cs).getD (n + 1) default = cs.getD n default := rfl
      rw [hg]
      show stripOffset c :: (cs.set n _).map stripOffset = stripOffset c :: cs.map stripOffset
      rw [ih n]

theorem strip_applyColOffsetsRank_aux (start : Nat) (L : List Nat) (p : List ZColumn × Nat) :
    ((L.foldl (fun (p : List ZColumn × Nat) i =>
      let icol := start + i
      let c := p.1.getD icol default
      (p.1.set icol ⟨c.x, c.y, c.z, p.2⟩, p.2 + c.z.length)) p).1).map stripOffset
    = p.1.map stripOffset := by
  induction L generalizing p with
  | nil => rfl
  | cons a L ih =>
    rw [List.foldl_cons, ih]
    exact map_stripOffset_set p.1 (start + a) p.2

theorem strip_applyColOffsetsRank (cols : List ZColumn) (start cnt : Nat) :
    (applyColOffsetsRank cols start cnt).map stripOffset = cols.map stripOffset :=
  strip_applyColOffsetsRank_aux start (List.range cnt) (cols, 0)

theorem strip_applyColOffsets (F : Nat) (zfft : BlockData) (cols : List ZColumn) :
    (applyColOffsets F zfft cols).map stripOffset = cols.map stripOffset := by
  unfold applyColOffsets
  generalize List.range F = L
  induction L generalizing cols with
  | nil => rfl
  | cons a L ih =>
    rw [List.foldl_cons, ih, strip_applyColOffsetsRank]

theorem getD_map_stripOffset (l : List ZColumn) (i : Nat) :
    (l.map stripOffset).getD i (stripOffset default) = stripOffset (l.getD i default) := by
  induction l generalizing i with
  | nil => rfl
  | cons c cs ih =>
    cases i with
    | zero => rfl
    | succ n => exact ih n

theorem gvecByFullIndex_strip_eq (cols cols' : List ZColumn)
    (h : cols.map stripOffset = cols'.map stripOffset) (idx : Nat) :
    gvecByFullIndex cols idx = gvecByFullIndex cols' idx := by
  have hc : stripOffset (cols.getD (idx / 4096) default)
      = stripOffset (cols'.getD (idx / 4096) default) := by
    rw [← getD_map_stripOffset, ← getD_map_stripOffset, h]
  simp only [gvecByFullIndex]
  simp only [stripOffset, Prod.mk.injEq] at hc
  rw [hc.1, hc.2.1, hc.2.2]

/-- Claim C9: prepare with a new FFT communicator recomputes only the
FFT-aggregated tables, the per-column offsets and the slab table; the
fine-grained per-rank vector and column tables, the column payloads
(x, y, z-sequence), the total vector count, the full-index table and the
shell data are unchanged. -/
theorem C9_prepare_frame (gv : Gvec) (comm : Communicator) (gv' : Gvec)
    (h : prepare gv comm = some gv') :
    gv'.gvecDistr = gv.gvecDistr ∧ gv'.zcolDistr = gv.zcolDistr ∧
    gv'.numGvec = gv.numGvec ∧ gv'.gvecFullIndex = gv.gvecFullIndex ∧
    gv'.gvecShell = gv.gvecShell ∧ gv'.numGvecShells = gv.numGvecShells ∧
    gv'.gvecShellLen = gv.gvecShellLen ∧
    gv'.zColumns.map stripOffset = gv.zColumns.map stripOffset ∧
    gv'.zColumns.length = gv.zColumns.length ∧
    gv'.numRanks = gv.numRanks ∧ gv'.vk = gv.vk ∧
    gv'.latticeVectors = gv.latticeVectors ∧ gv'.reduceGvec = gv.reduceGvec ∧
    gv'.fftComm = comm := by
  unfold prepare at h
  rcases hb : buildFftDistr comm.size gv.numRanks gv.gvecDistr.counts gv.zcolDistr.counts with
    _ | ⟨gfft, zfft⟩
  · rw [hb] at h; cases h
  · rw [hb] at h
    simp only at h
    rcases hp : pileGvec comm.size comm.rank gv.numRanks gv.gvecDistr.counts with _ | slab
    · rw [hp] at h; cases h
    · rw [hp] at h
      simp only [Option.some.injEq] at h
      subst h
      refine ⟨rfl, rfl, rfl, rfl, rfl, rfl, rfl, ?_, ?_, rfl, rfl, rfl, rfl, rfl⟩
      · exact strip_applyColOffsets comm.size zfft gv.zColumns
      · have := strip_applyColOffsets comm.size zfft gv.zColumns
        have hlen := congrArg List.length this
        simpa using hlen

/-- The G-vector set built from the one-point grid with k = 0, identity
lattice, unit cutoff, one rank, FFT size 1. -/
def tinyGv : Gvec :=
  ⟨qvecZero, idMat, false, 1, ⟨1, 0⟩, 1, [0], [0], 1, [qzero], [⟨0, 0, [0], 0⟩],
   ⟨[1], [0]⟩, ⟨[1], [0]⟩, ⟨[1], [0]⟩, ⟨[1], [0]⟩, ⟨[1], [0]⟩⟩

theorem construct_tiny :
    construct qvecZero idMat (qofInt 1) tinyGrid 1 ⟨1, 0⟩ false = some tinyGv := by decide

/-- The G-vector set built from the one-point grid over two ranks with FFT
communicator of size 2. -/
def pairGv : Gvec :=
  ⟨qvecZero, idMat, false, 2, ⟨2, 0⟩, 1, [0], [0], 1, [qzero], [⟨0, 0, [0], 0⟩],
   ⟨[1, 0], [0, 1]⟩, ⟨[1, 0], [0, 1]⟩, ⟨[1, 0], [0, 1]⟩, ⟨[1, 0], [0, 1]⟩, ⟨[1], [0]⟩⟩

/-- The same set after prepare with an FFT communicator of size 1: only the
FFT-aggregated tables and the slab table differ from pairGv. -/
def pairGvPrep : Gvec :=
  ⟨qvecZero, idMat, false, 2, ⟨1, 0⟩, 1, [0], [0], 1, [qzero], [⟨0, 0, [0], 0⟩],
   ⟨[1, 0], [0, 1]⟩, ⟨[1], [0]⟩, ⟨[1, 0], [0, 1]⟩, ⟨[1], [0]⟩, ⟨[1, 0], [0, 1]⟩⟩

theorem C9_prepare_frame_witness :
    pairGvPrep.gvecDistr = pairGv.gvecDistr ∧ pairGvPrep.zcolDistr = pairGv.zcolDistr ∧
    pairGvPrep.numGvec = pairGv.numGvec ∧ pairGvPrep.gvecFullIndex = pairGv.gvecFullIndex ∧
    pairGvPrep.gvecShell = pairGv.gvecShell ∧ pairGvPrep.numGvecShells = pairGv.numGvecShells ∧
    pairGvPrep.gvecShellLen = pairGv.gvecShellLen ∧
    pairGvPrep.zColumns.map stripOffset = pairGv.zColumns.map stripOffset ∧
    pairGvPrep.zColumns.length = pairGv.zColumns.length ∧
    pairGvPrep.numRanks = pairGv.numRanks ∧ pairGvPrep.vk = pairGv.vk ∧
    pairGvPrep.latticeVectors = pairGv.latticeVectors ∧
    pairGvPrep.reduceGvec = pairGv.reduceGvec ∧
    pairGvPrep.fftComm = ⟨1, 0⟩ :=
  C9_prepare_frame pairGv ⟨1, 0⟩ pairGvPrep (by decide)

/-! Claim C1: the mandatory zero-vector check at index 0. -/

/-- Claim C1: if construction returns a built structure, the G-vector
decoded from the packed address stored at global index 0 is exactly
(0, 0, 0); and whenever the index-table construction yields any other
vector at index 0, the constructor aborts (returns none) instead of
returning a built structure. -/
theorem C1_zero_vector_at_index_zero (vk : QVec) (M : QMat) (Gmax : QVal) (g : FFT3DGrid)
    (R : Nat) (comm : Communicator) (red : Bool) :
    (∀ gv, construct vk M Gmax g R comm red = some gv →
      gvecByFullIndex gv.zColumns (gv.gvecFullIndex.getD 0 0) = (0, 0, 0)) ∧
    ((gvecByFullIndex (indexStage vk M Gmax g R red).1
        ((indexStage vk M Gmax g R red).2.2.2.getD 0 0) ≠ (0, 0, 0)) →
      construct vk M Gmax g R comm red = none) := by
  constructor
  · intro gv h
    unfold construct at h
    rcases hIS : indexStage vk M Gmax g R red with ⟨cols2, numGvec, st, fullIdx⟩
    rw [hIS] at h
    cases fullIdx with
    | nil => cases h
    | cons i0 rest =>
      simp only at h
      by_cases hz : (gvecByFullIndex cols2 i0).1 ≠ 0 ∨ (gvecByFullIndex cols2 i0).2.1 ≠ 0 ∨
          (gvecByFullIndex cols2 i0).2.2 ≠ 0
      · rw [if_pos hz] at h; cases h
      · rw [if_neg hz] at h
        push_neg at hz
        rcases hb : buildFftDistr comm.size R (mkBlockData st.gcounts).counts
            (mkBlockData st.zcounts).counts with _ | ⟨gfft, zfft⟩
        · rw [hb] at h; cases h
        · rw [hb] at h
          simp only at h
          rcases hp : pileGvec comm.size comm.rank R (mkBlockData st.gcounts).counts
            with _ | slab
          · rw [hp] at h; cases h
          · rw [hp] at h
            simp only [Option.some.injEq] at h
            subst h
            simp only
            have hidx : (i0 :: rest).getD 0 0 = i0 := rfl
            rw [hidx,
              gvecByFullIndex_strip_eq _ _ (strip_applyColOffsets comm.size zfft cols2) i0]
            exact Prod.ext_iff.mpr ⟨hz.1, Prod.ext_iff.mpr ⟨hz.2.1, hz.2.2⟩⟩
  · intro hne
    unfold construct
    rcases hIS : indexStage vk M Gmax g R red with ⟨cols2, numGvec, st, fullIdx⟩
    rw [hIS] at hne
    cases fullIdx with
    | nil => rfl
    | cons i0 rest =>
      simp only at hne ⊢
      have hidx : (i0 :: rest).getD 0 0 = i0 := rfl
      rw [hidx] at hne
      have hcond : (gvecByFullIndex cols2 i0).1 ≠ 0 ∨ (gvecByFullIndex cols2 i0).2.1 ≠ 0 ∨
          (gvecByFullIndex cols2 i0).2.2 ≠ 0 := by
        by_contra hcon
        push_neg at hcon
        exact hne (Prod.ext_iff.mpr ⟨hcon.1, Prod.ext_iff.mpr ⟨hcon.2.1, hcon.2.2⟩⟩)
      rw [if_pos hcond]

theorem C1_zero_vector_at_index_zero_witness :
    gvecByFullIndex tinyGv.zColumns (tinyGv.gvecFullIndex.getD 0 0) = (0, 0, 0) :=
  (C1_zero_vector_at_index_zero qvecZero idMat (qofInt 1) tinyGrid 1 ⟨1, 0⟩ false).1
    tinyGv construct_tiny

/-! Claim C3: z-sequences of enumerated columns. -/

theorem mem_enum_fold (vk : QVec) (M : QMat) (Gmax : QVal) (g : FFT3DGrid) (red : Bool)
    (ps : List (Int × Int)) (st : EnumState) (c : ZColumn)
    (hc : c ∈ (ps.foldl (enumStep vk M Gmax g red) st).cols) :
    c ∈ st.cols ∨
      ∃ i j, c = ⟨i, j, zColFor vk M Gmax g red i j, 0⟩ ∧ zColFor vk M Gmax g red i j ≠ [] := by
  induction ps generalizing st with
  | nil => exact Or.inl hc
  | cons p ps ih =>
    rw [List.foldl_cons] at hc
    rcases ih _ hc with hin | hex
    · by_cases hacc : zColFor vk M Gmax g red p.1 p.2 ≠ [] ∧ p ∉ st.claimed
      · simp only [enumStep, if_pos hacc, List.mem_append, List.mem_singleton] at hin
        rcases hin with hin | rfl
        · exact Or.inl hin
        · exact Or.inr ⟨p.1, p.2, rfl, hacc.1⟩
      · simp only [enumStep, if_neg hacc] at hin
        exact Or.inl hin
    · exact Or.inr hex

theorem enum_cols_mem (vk : QVec) (M : QMat) (Gmax : QVal) (g : FFT3DGrid) (red : Bool)
    (c : ZColumn) (hc : c ∈ (enumerate vk M Gmax g red).cols) :
    ∃ i j, c = ⟨i, j, zColFor vk M Gmax g red i j, 0⟩ ∧ zColFor vk M Gmax g red i j ≠ [] := by
  rcases mem_enum_fold vk M Gmax g red (gridPairs g) ⟨[], [], 0⟩ c hc with hin | hex
  · cases hin
  · exact hex

theorem coord_gvec_roundtrip (g : FFT3DGrid) (_h1 : g.lim2.1 ≤ 0) (_h2 : 0 ≤ g.lim2.2)
    (iz : Nat) (hiz : iz < gridSize2 g) : coordByGvec2 g (gvecByCoord2 g iz) = iz := by
  unfold coordByGvec2 gvecByCoord2 gridSize2 at *
  split
  · rw [if_neg (by omega)]
  · rw [if_pos (by omega)]
    omega

theorem zmaxFor_lt_size (g : FFT3DGrid) (red : Bool) (i j : Int)
    (h1 : g.lim2.1 ≤ 0) (h2 : 0 ≤ g.lim2.2) : zmaxFor g red i j < gridSize2 g := by
  unfold zmaxFor gridSize2
  split <;> omega

theorem filterMap_if_eq_map_filter (f : Nat → Int) (P : Nat → Bool) (l : List Nat) :
    l.filterMap (fun x => if P x then some (f x) else none) = (l.filter P).map f := by
  induction l with
  | nil => rfl
  | cons a l ih =>
    by_cases hp : P a
    · simp [hp, ih]
    · simp [hp, ih]

theorem zColFor_pairwise_coord (vk : QVec) (M : QMat) (Gmax : QVal) (g : FFT3DGrid)
    (red : Bool) (i j : Int) (h1 : g.lim2.1 ≤ 0) (h2 : 0 ≤ g.lim2.2) :
    List.Pairwise (fun a b => coordByGvec2 g a < coordByGvec2 g b)
      (zColFor vk M Gmax g red i j) := by
  have hz : zColFor vk M Gmax g red i j
      = ((List.range (zmaxFor g red i j + 1)).filter
          (fun iz => insideCutoff Gmax
            (qmulVec M (qvecAdd (qvecOfInt i j (gvecByCoord2 g iz)) vk)))).map
          (gvecByCoord2 g) := by
    rw [zColFor, filterMap_if_eq_map_filter]
  rw [hz, List.pairwise_map]
  have hr : List.Pairwise (· < ·) (List.range (zmaxFor g red i j + 1)) :=
    List.sorted_lt_range _
  have hsub : List.Pairwise (· < ·) ((List.range (zmaxFor g red i j + 1)).filter
      (fun iz => insideCutoff Gmax
        (qmulVec M (qvecAdd (qvecOfInt i j (gvecByCoord2 g iz)) vk)))) :=
    hr.sublist (List.filter_sublist _)
  have hmem : ∀ a ∈ (List.range (zmaxFor g red i j + 1)).filter
      (fun iz => insideCutoff Gmax
        (qmulVec M (qvecAdd (qvecOfInt i j (gvecByCoord2 g iz)) vk))), a < gridSize2 g := by
    intro a ha
    have := List.mem_range.mp (List.mem_of_mem_filter ha)
    have := zmaxFor_lt_size g red i j h1 h2
    omega
  refine List.Pairwise.imp_of_mem ?_ hsub
  intro a b ha hb hab
  rw [coord_gvec_roundtrip g h1 h2 a (hmem a ha), coord_gvec_roundtrip g h1 h2 b (hmem b hb)]
  exact_mod_cast hab

/-- Claim C3 counterexample: on the grid [0,0] x [0,0] x [-1,1] with unit
cutoff, identity lattice and k = 0, the enumerator produces the single
column (0,0) with stored z-sequence [0, 1, -1], which is not strictly
increasing in storage order (position 1 holds 1, position 2 holds -1). -/
theorem C3_counterexample :
    (enumerate qvecZero idMat (qofInt 1) zedGrid false).cols.map (fun c => c.z)
      = [[0, 1, -1]] ∧
    ¬ List.Pairwise (fun a b : Int => a < b) [0, 1, -1] := by decide

/-- Claim C3 amended: for every column produced by the enumerator (on a
grid whose z-limits straddle 0), the stored z-sequence is non-empty and is
strictly increasing in FFT grid-coordinate order (coord_by_gvec order:
ascending non-negative z-values first, then ascending negative z-values),
not in plain z order. -/
theorem C3_zcol_nonempty_fft_order (vk : QVec) (M : QMat) (Gmax : QVal) (g : FFT3DGrid)
    (red : Bool) (h1 : g.lim2.1 ≤ 0) (h2 : 0 ≤ g.lim2.2) (c : ZColumn)
    (hc : c ∈ (enumerate vk M Gmax g red).cols) :
    c.z ≠ [] ∧ List.Pairwise (fun a b => coordByGvec2 g a < coordByGvec2 g b) c.z := by
  obtain ⟨i, j, rfl, hne⟩ := enum_cols_mem vk M Gmax g red c hc
  exact ⟨hne, zColFor_pairwise_coord vk M Gmax g red i j h1 h2⟩

theorem C3_zcol_nonempty_fft_order_witness :
    (([0, 1, -1] : List Int) ≠ [] ∧
      List.Pairwise (fun a b => coordByGvec2 zedGrid a < coordByGvec2 zedGrid b)
        ([0, 1, -1] : List Int)) :=
  C3_zcol_nonempty_fft_order qvecZero idMat (qofInt 1) zedGrid false (by decide) (by decide)
    ⟨0, 0, [0, 1, -1], 0⟩ (by decide)

/-! Claim C4: the column ordering after the swap and the sort. -/

theorem findIdx?_some_aux (p : ZColumn → Bool) (l : List ZColumn) (i k : Nat)
    (h : List.findIdx? p l i = some k) :
    i ≤ k ∧ k - i < l.length ∧ p (l.getD (k - i) default) = true := by
  induction l generalizing i with
  | nil => cases h
  | cons c cs ih =>
    rw [List.findIdx?_cons] at h
    by_cases hp : p c = true
    · rw [if_pos hp] at h
      have hk : k = i := by
        have := Option.some.inj h
        omega
      subst hk
      simp [hp]
    · rw [if_neg hp] at h
      obtain ⟨h1, h2, h3⟩ := ih (i + 1) h
      refine ⟨by omega, by simp; omega, ?_⟩
      have hki : k - i = (k - (i + 1)) + 1 := by omega
      rw [hki]
      exact h3

theorem findIdx?_isSome (p : ZColumn → Bool) (l : List ZColumn) (i : Nat)
    (hex : ∃ c ∈ l, p c = true) : ∃ k, List.findIdx? p l i = some k := by
  induction l generalizing i with
  | nil => obtain ⟨c, hc, _⟩ := hex; cases hc
  | cons c cs ih =>
    rw [List.findIdx?_cons]
    by_cases hp : p c = true
    · exact ⟨i, by rw [if_pos hp]⟩
    · rw [if_neg hp]
      rcases hex with ⟨d, hd, hpd⟩
      rcases List.mem_cons.mp hd with rfl | hd'
      · exact absurd hpd hp
      · exact ih (i + 1) ⟨d, hd', hpd⟩

theorem swapZeroCol_head_is00 (cols : List ZColumn)
    (hex : ∃ c ∈ cols, c.x = 0 ∧ c.y = 0) :
    ∃ hd tl, swapZeroCol cols = hd :: tl ∧ hd.x = 0 ∧ hd.y = 0 := by
  obtain ⟨k, hk⟩ := findIdx?_isSome (fun c => c.x = 0 && c.y = 0) cols 0
    (by obtain ⟨c, hc, h1, h2⟩ := hex; exact ⟨c, hc, by simp [h1, h2]⟩)
  obtain ⟨_, hlt, hpk⟩ := findIdx?_some_aux _ _ 0 k hk
  rw [Nat.sub_zero] at hlt hpk
  unfold swapZeroCol
  rw [hk]
  cases cols with
  | nil => simp at hlt
  | cons c cs =>
    cases k with
    | zero =>
      have hpk' : c.x = 0 ∧ c.y = 0 := by simpa using hpk
      exact ⟨c, cs, rfl, hpk'.1, hpk'.2⟩
    | succ m =>
      have hpk' : (cs.getD m default).x = 0 ∧ (cs.getD m default).y = 0 := by simpa using hpk
      exact ⟨cs.getD m default, cs.set m c, rfl, hpk'.1, hpk'.2⟩

theorem getD_set_cons_perm (cs : List ZColumn) (m : Nat) (c : ZColumn) (hm : m < cs.length) :
    (cs.getD m default :: cs.set m c).Perm (c :: cs) := by
  induction cs generalizing m with
  | nil => simp at hm
  | cons b bs ih =>
    cases m with
    | zero => exact List.Perm.swap c b bs
    | succ m' =>
      have h1 : (bs.getD m' default :: b :: bs.set m' c).Perm
          (b :: bs.getD m' default :: bs.set m' c) := List.Perm.swap b _ _
      have h2 : (b :: bs.getD m' default :: bs.set m' c).Perm (b :: c :: bs) :=
        (ih m' (by simpa using hm)).cons b
      have h3 : (b :: c :: bs).Perm (c :: b :: bs) := List.Perm.swap c b bs
      exact (h1.trans h2).trans h3

theorem swapZeroCol_perm (cols : List ZColumn) : (swapZeroCol cols).Perm cols := by
  unfold swapZeroCol
  cases hk : cols.findIdx? (fun c => c.x = 0 && c.y = 0) with
  | none => exact List.Perm.refl cols
  | some k =>
    obtain ⟨_, hlt, _⟩ := findIdx?_some_aux _ _ 0 k hk
    rw [Nat.sub_zero] at hlt
    cases cols with
    | nil => simp at hlt
    | cons c cs =>
      cases k with
      | zero => exact List.Perm.refl _
      | succ m => exact getD_set_cons_perm cs m c (by simpa using hlt)

theorem filter_len_orderedInsert (a : ZColumn) (l : List ZColumn) (n : Nat) :
    (List.orderedInsert (fun a b => colLen b ≤ colLen a) a l).filter
        (fun c => colLen c = n)
      = if colLen a = n then a :: l.filter (fun c => colLen c = n)
        else l.filter (fun c => colLen c = n) := by
  induction l with
  | nil =>
    by_cases hn : colLen a = n
    · simp [List.orderedInsert, hn]
    · simp [List.orderedInsert, hn]
  | cons b l ih =>
    by_cases hr : colLen b ≤ colLen a
    · have : List.orderedInsert (fun a b => colLen b ≤ colLen a) a (b :: l)
          = a :: b :: l := by
        simp [List.orderedInsert, hr]
      rw [this]
      by_cases hn : colLen a = n
      · simp [List.filter_cons, hn]
      · simp [List.filter_cons, hn]
    · have : List.orderedInsert (fun a b => colLen b ≤ colLen a) a (b :: l)
          = b :: List.orderedInsert (fun a b => colLen b ≤ colLen a) a l := by
        simp [List.orderedInsert, hr]
      rw [this]
      by_cases hn : colLen a = n
      · have hbn : ¬ (colLen b = n) := by omega
        simp [List.filter_cons, hbn, ih, hn]
      · by_cases hbn : colLen b = n
        · simp [List.filter_cons, hbn, ih, hn]
        · simp [List.filter_cons, hbn, ih, hn]

theorem filter_len_sortDesc (l : List ZColumn) (n : Nat) :
    (sortDescByLen l).filter (fun c => colLen c = n) = l.filter (fun c => colLen c = n) := by
  induction l with
  | nil => rfl
  | cons a l ih =>
    show (List.orderedInsert _ a (sortDescByLen l)).filter (fun c => colLen c = n) = _
    rw [filter_len_orderedInsert]
    by_cases hn : colLen a = n
    · simp [List.filter_cons, hn, ih]
    · simp [List.filter_cons, hn, ih]

theorem sortDesc_pairwise (l : List ZColumn) :
    List.Pairwise (fun a b => colLen b ≤ colLen a) (sortDescByLen l) := by
  haveI : IsTotal ZColumn (fun a b => colLen b ≤ colLen a) :=
    ⟨fun a b => Nat.le_total (colLen b) (colLen a)⟩
  haveI : IsTrans ZColumn (fun a b => colLen b ≤ colLen a) :=
    ⟨fun _ _ _ hab hbc => Nat.le_trans hbc hab⟩
  exact List.sorted_insertionSort _ l

/-- Claim C4 counterexample: on the grid [-2,2] x [0,0] x [0,0] (cutoff 2,
identity lattice, k = 0) all five columns have z-length 1; the swap moves
the (0,0) column to the front and drops the previously-first column (-2,0)
into the middle, so the result differs from the claim's description
((0,0) first, remaining columns stable-sorted by decreasing length with
ties in the original discovery order). -/
theorem C4_counterexample :
    (sortColumns (enumerate qvecZero idMat (qofInt 2) rowGrid false).cols).map
        (fun c => (c.x, c.y))
      = [(0, 0), (-1, 0), (-2, 0), (1, 0), (2, 0)] ∧
    (sortColumnsSpec (enumerate qvecZero idMat (qofInt 2) rowGrid false).cols).map
        (fun c => (c.x, c.y))
      = [(0, 0), (-2, 0), (-1, 0), (1, 0), (2, 0)] ∧
    sortColumns (enumerate qvecZero idMat (qofInt 2) rowGrid false).cols
      ≠ sortColumnsSpec (enumerate qvecZero idMat (qofInt 2) rowGrid false).cols := by
  decide

/-- Claim C4 amended: after enumeration, the (0,0) column (when present) is
swapped to position 0 (the column that held position 0 takes its former
place), and the columns from position 1 onward are stable-sorted by
decreasing z-sequence length, ties preserving the order after the swap
(which differs from the discovery order whenever the swap displaced the
original first column); the sorted list is a permutation of the enumerated
columns. -/
theorem C4_sort_amended (cols : List ZColumn) :
    ((∃ c ∈ cols, c.x = 0 ∧ c.y = 0) →
      ∃ hd tl, sortColumns cols = hd :: tl ∧ hd.x = 0 ∧ hd.y = 0) ∧
    List.Pairwise (fun a b => colLen b ≤ colLen a) (sortColumns cols).tail ∧
    (∀ n, (sortColumns cols).tail.filter (fun c => colLen c = n)
        = (swapZeroCol cols).tail.filter (fun c => colLen c = n)) ∧
    (sortColumns cols).Perm cols := by
  refine ⟨?_, ?_, ?_, ?_⟩
  · intro hex
    obtain ⟨hd, tl, hsw, hx, hy⟩ := swapZeroCol_head_is00 cols hex
    exact ⟨hd, sortDescByLen tl, by rw [sortColumns, hsw], hx, hy⟩
  · rcases hsw : swapZeroCol cols with _ | ⟨c, rest⟩
    · rw [sortColumns, hsw]
      exact List.Pairwise.nil
    · rw [sortColumns, hsw]
      exact sortDesc_pairwise rest
  · intro n
    rcases hsw : swapZeroCol cols with _ | ⟨c, rest⟩
    · rw [sortColumns, hsw]
    · rw [sortColumns, hsw]
      exact filter_len_sortDesc rest n
  · have hperm : (sortColumns cols).Perm (swapZeroCol cols) := by
      rcases hsw : swapZeroCol cols with _ | ⟨c, rest⟩
      · rw [sortColumns, hsw]
      · rw [sortColumns, hsw]
        exact (List.perm_insertionSort _ rest).cons c
    exact hperm.trans (swapZeroCol_perm cols)

theorem C4_sort_amended_witness :
    ((∃ c ∈ (enumerate qvecZero idMat (qofInt 2) rowGrid false).cols, c.x = 0 ∧ c.y = 0) →
      ∃ hd tl, sortColumns (enumerate qvecZero idMat (qofInt 2) rowGrid false).cols
          = hd :: tl ∧ hd.x = 0 ∧ hd.y = 0) ∧
    List.Pairwise (fun a b => colLen b ≤ colLen a)
      (sortColumns (enumerate qvecZero idMat (qofInt 2) rowGrid false).cols).tail ∧
    (∀ n, (sortColumns (enumerate qvecZero idMat (qofInt 2) rowGrid false).cols).tail.filter
          (fun c => colLen c = n)
        = (swapZeroCol (enumerate qvecZero idMat (qofInt 2) rowGrid false).cols).tail.filter
          (fun c => colLen c = n)) ∧
    (sortColumns (enumerate qvecZero idMat (qofInt 2) rowGrid false).cols).Perm
      (enumerate qvecZero idMat (qofInt 2) rowGrid false).cols :=
  C4_sort_amended (enumerate qvecZero idMat (qofInt 2) rowGrid false).cols

/-! Claim C2: which rank receives each column. -/

theorem minElt_mem (f : Nat → Nat) (l : List Nat) :
    ∀ b, minElt f b l ∈ b :: l := by
  induction l with
  | nil => intro b; simp [minElt]
  | cons a l ih =>
    intro b
    rw [minElt]
    by_cases h : f a < f b
    · rw [if_pos h]
      exact List.mem_cons_of_mem b (ih a)
    · rw [if_neg h]
      rcases List.mem_cons.mp (ih b) with he | h'
      · rw [he]; exact List.mem_cons_self b (a :: l)
      · exact List.mem_cons_of_mem b (List.mem_cons_of_mem a h')

theorem minElt_le (f : Nat → Nat) (l : List Nat) :
    ∀ b, ∀ a ∈ b :: l, f (minElt f b l) ≤ f a := by
  induction l with
  | nil =>
    intro b a ha
    rcases List.mem_cons.mp ha with rfl | h'
    · exact Nat.le_refl _
    · cases h'
  | cons x l ih =>
    intro b a ha
    rw [minElt]
    by_cases h : f x < f b
    · rw [if_pos h]
      rcases List.mem_cons.mp ha with rfl | ha'
      · exact Nat.le_of_lt (Nat.lt_of_le_of_lt (ih x x (List.mem_cons_self x l)) h)
      · exact ih x a ha'
    · rw [if_neg h]
      rcases List.mem_cons.mp ha with rfl | ha'
      · exact ih a a (List.mem_cons_self a l)
      · rcases List.mem_cons.mp ha' with rfl | ha''
        · exact Nat.le_trans (ih b b (List.mem_cons_self b l)) (Nat.le_of_not_lt h)
        · exact ih b a (List.mem_cons_of_mem b ha'')

theorem minElt_eq_head_or_lt (f : Nat → Nat) (l : List Nat) :
    ∀ b, minElt f b l = b ∨ f (minElt f b l) < f b := by
  induction l with
  | nil => intro b; exact Or.inl rfl
  | cons x l ih =>
    intro b
    rw [minElt]
    by_cases h : f x < f b
    · rw [if_pos h]
      right
      rcases ih x with he | hlt
      · rw [he]; exact h
      · exact Nat.lt_trans hlt h
    · rw [if_neg h]
      exact ih b

theorem minElt_tie_le (f : Nat → Nat) (l : List Nat) :
    ∀ b, List.Pairwise (· < ·) (b :: l) →
      ∀ a ∈ b :: l, f a = f (minElt f b l) → minElt f b l ≤ a := by
  induction l with
  | nil =>
    intro b _ a ha _
    rcases List.mem_cons.mp ha with rfl | h'
    · simp [minElt]
    · cases h'
  | cons x l ih =>
    intro b hp a ha he
    rw [minElt] at he ⊢
    by_cases h : f x < f b
    · rw [if_pos h] at he ⊢
      rcases List.mem_cons.mp ha with rfl | ha'
      · exfalso
        have hle := minElt_le f l x x (List.mem_cons_self x l)
        omega
      · exact ih x hp.of_cons a ha' he
    · rw [if_neg h] at he ⊢
      rcases List.mem_cons.mp ha with rfl | ha'
      · rcases minElt_eq_head_or_lt f l a with hm | hm
        · rw [hm]
        · omega
      · rcases List.mem_cons.mp ha' with rfl | ha''
        · rcases minElt_eq_head_or_lt f l b with hm | hm
          · rw [hm]
            have hbx : b < a := (List.pairwise_cons.mp hp).1 a (List.mem_cons_self a l)
            exact Nat.le_of_lt hbx
          · exfalso; omega
        · have hp' : List.Pairwise (· < ·) (b :: l) := by
            rcases List.pairwise_cons.mp hp with ⟨hb, hxl⟩
            rcases List.pairwise_cons.mp hxl with ⟨_, hl⟩
            exact List.pairwise_cons.mpr
              ⟨fun y hy => hb y (List.mem_cons_of_mem x hy), hl⟩
          exact ih b hp' a (List.mem_cons.mpr (Or.inr ha'')) he

/-- State invariant of the distribution loop: the candidate list is
strictly ascending (so the first minimum is the lowest rank id among the
minima) and contains only valid ranks; the count tables keep length R. -/
def StInv (R : Nat) (st : DistState) : Prop :=
  List.Pairwise (· < ·) st.cands ∧ (∀ x ∈ st.cands, x < R) ∧
  st.gcounts.length = R ∧ st.zcounts.length = R

theorem effCands_ne_nil (R : Nat) (hR : 0 < R) (cands : List Nat) :
    effCands R cands ≠ [] := by
  unfold effCands
  split
  · simpa using Nat.ne_of_gt hR
  · assumption

theorem effCands_sound (R : Nat) (st : DistState) (h : StInv R st) :
    List.Pairwise (· < ·) (effCands R st.cands) ∧ ∀ x ∈ effCands R st.cands, x < R := by
  unfold effCands
  split
  · exact ⟨List.sorted_lt_range R, fun x hx => List.mem_range.mp hx⟩
  · exact ⟨h.1, h.2.1⟩

theorem StInv_init (R : Nat) : StInv R (distInit R) :=
  ⟨List.Pairwise.nil, fun x hx => absurd hx (List.not_mem_nil x), by simp [distInit],
   by simp [distInit]⟩

theorem StInv_step (R : Nat) (st : DistState) (len : Nat) (h : StInv R st) :
    StInv R (distStep R st len) := by
  unfold distStep
  rcases hcs : effCands R st.cands with _ | ⟨c, cs⟩
  · exact h
  · have hsound := effCands_sound R st h
    rw [hcs] at hsound
    refine ⟨?_, ?_, ?_, ?_⟩
    · exact hsound.1.sublist (List.erase_sublist _ _)
    · intro x hx
      exact hsound.2 x ((List.erase_sublist _ _).mem hx)
    · simpa using h.2.2.1
    · simpa using h.2.2.2

theorem scanl_getD_zero (f : DistState → Nat → DistState) (init : DistState)
    (lens : List Nat) (d : DistState) : (List.scanl f init lens).getD 0 d = init := by
  cases lens <;> rfl

theorem scanl_getD_succ (f : DistState → Nat → DistState) (init : DistState)
    (lens : List Nat) (i : Nat) (hi : i < lens.length) :
    (List.scanl f init lens).getD (i + 1) init
      = f ((List.scanl f init lens).getD i init) (lens.getD i 0) := by
  induction lens generalizing init i with
  | nil => simp at hi
  | cons a l ih =>
    rw [List.scanl_cons]
    cases i with
    | zero =>
      show (List.scanl f (f init a) l).getD 0 init = f _ ((a :: l).getD 0 0)
      rw [scanl_getD_zero]
      have : (List.scanl f init (a :: l)).getD 0 init = init := scanl_getD_zero f init _ init
      rw [List.scanl_cons] at this
      show f init a = f ((init :: List.scanl f (f init a) l).getD 0 init) a
      rfl
    | succ j =>
      show (List.scanl f (f init a) l).getD (j + 1) init
        = f ((List.scanl f (f init a) l).getD j init) ((a :: l).getD (j + 1) 0)
      have hj : j < l.length := by simpa using hi
      have heq := ih (f init a) j hj
      have hd1 : (List.scanl f (f init a) l).getD (j + 1) init
          = (List.scanl f (f init a) l).getD (j + 1) (f init a) := by
        have hlen : j + 1 < (List.scanl f (f init a) l).length := by
          rw [List.length_scanl]; omega
        rw [List.getD_eq_getElem _ _ hlen, List.getD_eq_getElem _ _ hlen]
      have hd2 : (List.scanl f (f init a) l).getD j init
          = (List.scanl f (f init a) l).getD j (f init a) := by
        have hlen : j < (List.scanl f (f init a) l).length := by
          rw [List.length_scanl]; omega
        rw [List.getD_eq_getElem _ _ hlen, List.getD_eq_getElem _ _ hlen]
      rw [hd1, hd2, heq]
      rfl

theorem scanl_states_StInv (R : Nat) (lens : List Nat) (i : Nat) :
    StInv R ((List.scanl (distStep R) (distInit R) lens).getD i (distInit R)) := by
  induction i with
  | zero => rw [scanl_getD_zero]; exact StInv_init R
  | succ j ih =>
    by_cases hj : j < lens.length
    · rw [scanl_getD_succ _ _ _ j hj]
      exact StInv_step R _ _ ih
    · have hlen : (List.scanl (distStep R) (distInit R) lens).length ≤ j + 1 := by
        rw [List.length_scanl]; omega
      rw [List.getD_eq_default _ _ hlen]
      exact StInv_init R

theorem distStep_eq (R : Nat) (st : DistState) (len c : Nat) (cs : List Nat)
    (hcs : effCands R st.cands = c :: cs) :
    distStep R st len
      = { gcounts := st.gcounts.set (minElt (fun i => st.gcounts.getD i 0) c cs)
            (st.gcounts.getD (minElt (fun i => st.gcounts.getD i 0) c cs) 0 + len),
          zcounts := st.zcounts.set (minElt (fun i => st.gcounts.getD i 0) c cs)
            (st.zcounts.getD (minElt (fun i => st.gcounts.getD i 0) c cs) 0 + 1),
          cands := (c :: cs).erase (minElt (fun i => st.gcounts.getD i 0) c cs),
          assign := st.assign ++ [minElt (fun i => st.gcounts.getD i 0) c cs] } := by
  unfold distStep
  rw [hcs]

/-- Columns of sizes 10, 1, 1, 1 (the (0,0) column first, the rest in
descending length order, as the constructor's sort produces). -/
def cexCols : List ZColumn :=
  [⟨0, 0, [0, 1, 2, 3, 4, 5, 6, 7, 8, 9], 0⟩, ⟨1, 0, [0], 0⟩, ⟨0, 1, [0], 0⟩, ⟨1, 1, [0], 0⟩]

/-- Claim C2 counterexample: distributing the sorted columns of sizes
[10, 1, 1, 1] over 2 ranks, the code assigns the fourth column to rank 0
(the only remaining candidate of the second round, holding 10 vectors)
although rank 1 holds fewer vectors (2); the claim's rule (minimum over all
ranks 0..R-1) would assign it to rank 1. -/
theorem C2_counterexample :
    (distribute 2 ((sortColumns cexCols).map colLen)).assign = [0, 1, 1, 0] ∧
    (distributeSpecAssign 2 ((sortColumns cexCols).map colLen)).2 = [0, 1, 1, 1] ∧
    (distribute 2 ((sortColumns cexCols).map colLen)).assign
      ≠ (distributeSpecAssign 2 ((sortColumns cexCols).map colLen)).2 := by decide

/-- Claim C2 amended: columns are processed in their pre-sorted order, and
each column is assigned to the rank currently holding the fewest vectors
among the CANDIDATE ranks (the ranks not yet given a column in the current
round; the candidate list refills to 0..R-1 when exhausted), with ties
broken by lowest rank id; the chosen rank's running vector count then grows
by the column's z-sequence length, its column count by one, and it is
removed from the candidate list. -/
theorem C2_greedy_candidate_assignment (R : Nat) (hR : 0 < R) (lens : List Nat) (i : Nat)
    (hi : i < lens.length) :
    ∃ c cs,
      effCands R ((List.scanl (distStep R) (distInit R) lens).getD i (distInit R)).cands
        = c :: cs ∧
      (minElt (fun x =>
          ((List.scanl (distStep R) (distInit R) lens).getD i (distInit R)).gcounts.getD x 0)
        c cs) ∈ c :: cs ∧
      (∀ x ∈ c :: cs,
        ((List.scanl (distStep R) (distInit R) lens).getD i (distInit R)).gcounts.getD
            (minElt (fun x =>
              ((List.scanl (distStep R) (distInit R) lens).getD i
                (distInit R)).gcounts.getD x 0) c cs) 0
          ≤ ((List.scanl (distStep R) (distInit R) lens).getD i (distInit R)).gcounts.getD x 0) ∧
      (∀ x ∈ c :: cs,
        ((List.scanl (distStep R) (distInit R) lens).getD i (distInit R)).gcounts.getD x 0
            = ((List.scanl (distStep R) (distInit R) lens).getD i (distInit R)).gcounts.getD
              (minElt (fun x =>
                ((List.scanl (distStep R) (distInit R) lens).getD i
                  (distInit R)).gcounts.getD x 0) c cs) 0 →
          (minElt (fun x =>
            ((List.scanl (distStep R) (distInit R) lens).getD i
              (distInit R)).gcounts.getD x 0) c cs) ≤ x) ∧
      (List.scanl (distStep R) (distInit R) lens).getD (i + 1) (distInit R)
        = (fun st r =>
            ({ gcounts := st.gcounts.set r (st.gcounts.getD r 0 + lens.getD i 0),
               zcounts := st.zcounts.set r (st.zcounts.getD r 0 + 1),
               cands := (c :: cs).erase r,
               assign := st.assign ++ [r] } : DistState))
          ((List.scanl (distStep R) (distInit R) lens).getD i (distInit R))
          (minElt (fun x =>
            ((List.scanl (distStep R) (distInit R) lens).getD i
              (distInit R)).gcounts.getD x 0) c cs) := by
  have hinv := scanl_states_StInv R lens i
  rcases hcs : effCands R
      ((List.scanl (distStep R) (distInit R) lens).getD i (distInit R)).cands
    with _ | ⟨c, cs⟩
  · exact absurd hcs (effCands_ne_nil R hR _)
  · have hsound := effCands_sound R _ hinv
    rw [hcs] at hsound
    refine ⟨c, cs, rfl, ?_, ?_, ?_, ?_⟩
    · exact minElt_mem _ cs c
    · exact minElt_le (fun x =>
        ((List.scanl (distStep R) (distInit R) lens).getD i (distInit R)).gcounts.getD x 0) cs c
    · intro x hx he
      exact minElt_tie_le (fun x =>
        ((List.scanl (distStep R) (distInit R) lens).getD i (distInit R)).gcounts.getD x 0)
        cs c hsound.1 x hx he
    · rw [scanl_getD_succ _ _ _ i hi, distStep_eq R _ _ c cs hcs]

/-- The sorted lengths of the counterexample columns. -/
def cexLens : List Nat := (sortColumns cexCols).map colLen

theorem C2_greedy_candidate_assignment_witness :
    ∃ c cs,
      effCands 2 ((List.scanl (distStep 2) (distInit 2) cexLens).getD 3 (distInit 2)).cands
        = c :: cs ∧
      (minElt (fun x =>
          ((List.scanl (distStep 2) (distInit 2) cexLens).getD 3 (distInit 2)).gcounts.getD x 0)
        c cs) ∈ c :: cs ∧
      (∀ x ∈ c :: cs,
        ((List.scanl (distStep 2) (distInit 2) cexLens).getD 3 (distInit 2)).gcounts.getD
            (minElt (fun x =>
              ((List.scanl (distStep 2) (distInit 2) cexLens).getD 3
                (distInit 2)).gcounts.getD x 0) c cs) 0
          ≤ ((List.scanl (distStep 2) (distInit 2) cexLens).getD 3 (distInit 2)).gcounts.getD x 0) ∧
      (∀ x ∈ c :: cs,
        ((List.scanl (distStep 2) (distInit 2) cexLens).getD 3 (distInit 2)).gcounts.getD x 0
            = ((List.scanl (distStep 2) (distInit 2) cexLens).getD 3 (distInit 2)).gcounts.getD
              (minElt (fun x =>
                ((List.scanl (distStep 2) (distInit 2) cexLens).getD 3
                  (distInit 2)).gcounts.getD x 0) c cs) 0 →
          (minElt (fun x =>
            ((List.scanl (distStep 2) (distInit 2) cexLens).getD 3
              (distInit 2)).gcounts.getD x 0) c cs) ≤ x) ∧
      (List.scanl (distStep 2) (distInit 2) cexLens).getD (3 + 1) (distInit 2)
        = (fun st r =>
            ({ gcounts := st.gcounts.set r (st.gcounts.getD r 0 + cexLens.getD 3 0),
               zcounts := st.zcounts.set r (st.zcounts.getD r 0 + 1),
               cands := (c :: cs).erase r,
               assign := st.assign ++ [r] } : DistState))
          ((List.scanl (distStep 2) (distInit 2) cexLens).getD 3 (distInit 2))
          (minElt (fun x =>
            ((List.scanl (distStep 2) (distInit 2) cexLens).getD 3
              (distInit 2)).gcounts.getD x 0) c cs) :=
  C2_greedy_candidate_assignment 2 (by decide) cexLens 3 (by decide)

/-! Claim C10: per-rank column counts are balanced to within one. -/

/-- Round invariant of the distribution loop, tracking column counts: after
k = q * R + m processed columns (m < R), the m ranks already served in the
current round hold q + 1 columns each, the R - m remaining candidates hold
q columns each (when m = 0 the candidate list is empty, pending a refill,
and every rank holds exactly q columns). -/
def zInv (R : Nat) (st : DistState) : Prop :=
  ∃ q m, st.assign.length = q * R + m ∧ m < R ∧ st.cands.Nodup ∧
    (∀ x ∈ st.cands, x < R) ∧
    (m = 0 → st.cands = []) ∧ (m ≠ 0 → st.cands.length = R - m) ∧
    (∀ x, x < R → x ∈ st.cands → st.zcounts.getD x 0 = q) ∧
    (∀ x, x < R → x ∉ st.cands → st.zcounts.getD x 0 = if m = 0 then q else q + 1) ∧
    st.zcounts.length = R

theorem zInv_init (R : Nat) (hR : 0 < R) : zInv R (distInit R) := by
  refine ⟨0, 0, by simp [distInit], hR, List.nodup_nil, ?_, fun _ => rfl, ?_, ?_, ?_, ?_⟩
  · intro x hx; cases hx
  · intro h; exact absurd rfl h
  · intro x _ hx; cases hx
  · intro x _ _; simp [distInit, getD_replicate_zero]
  · simp [distInit]


theorem zInv_step (R : Nat) (hR : 0 < R) (st : DistState) (len : Nat) (h : zInv R st) :
    zInv R (distStep R st len) := by
  obtain ⟨q, m, hk, hm, hnd, hmem, hm0, hmne, hin, hout, hzlen⟩ := h
  rcases hcs : effCands R st.cands with _ | ⟨c, cs⟩
  · exact absurd hcs (effCands_ne_nil R hR _)
  rw [distStep_eq R st len c cs hcs]
  have hrmem : minElt (fun i => st.gcounts.getD i 0) c cs ∈ c :: cs := minElt_mem _ cs c
  by_cases hm00 : m = 0
  · have hcands : st.cands = [] := hm0 hm00
    have hcs' : c :: cs = List.range R := by
      rw [← hcs]; unfold effCands; rw [if_pos hcands]
    have hrR : minElt (fun i => st.gcounts.getD i 0) c cs < R := by
      rw [hcs'] at hrmem; exact List.mem_range.mp hrmem
    have hcnt_r : st.zcounts.getD (minElt (fun i => st.gcounts.getD i 0) c cs) 0 = q := by
      have := hout _ hrR (by rw [hcands]; exact List.not_mem_nil _)
      simpa [hm00] using this
    have hlen_cc : (c :: cs).length = R := by rw [hcs']; simp
    have hnd' : (c :: cs).Nodup := by rw [hcs']; exact List.nodup_range R
    have hlenE : ((c :: cs).erase (minElt (fun i => st.gcounts.getD i 0) c cs)).length
        = R - 1 := by
      rw [List.length_erase_of_mem hrmem, hlen_cc]
    by_cases hR1 : R = 1
    · subst hR1
      refine ⟨q + 1, 0, ?_, hR, hnd'.erase _, ?_, fun _ => ?_, ?_, ?_, ?_, ?_⟩
      · simp only [List.length_append, List.length_cons, List.length_nil]
        omega
      · intro x hx
        have hx' : x ∈ c :: cs := (List.erase_sublist _ _).mem hx
        rw [hcs'] at hx'
        exact List.mem_range.mp hx'
      · show (c :: cs).erase (minElt (fun i => st.gcounts.getD i 0) c cs) = []
        exact List.length_eq_zero.mp (by omega)
      · intro hne'; exact absurd rfl hne'
      · intro x _ hx
        have hx' : x ∈ (c :: cs).erase (minElt (fun i => st.gcounts.getD i 0) c cs) := hx
        rw [List.length_eq_zero.mp (by omega : ((c :: cs).erase
          (minElt (fun i => st.gcounts.getD i 0) c cs)).length = 0)] at hx'
        cases hx'
      · intro x hxR _
        change (st.zcounts.set (minElt (fun i => st.gcounts.getD i 0) c cs)
          (st.zcounts.getD (minElt (fun i => st.gcounts.getD i 0) c cs) 0 + 1)).getD x 0 = _
        have hxr : x = minElt (fun i => st.gcounts.getD i 0) c cs := by omega
        rw [hxr, getD_set_self _ _ _ (by omega), hcnt_r]
        simp
      · simpa using hzlen
    · refine ⟨q, 1, ?_, by omega, hnd'.erase _, ?_,
        fun h1 => absurd h1 (by omega), fun _ => hlenE, ?_, ?_, ?_⟩
      · simp only [List.length_append, List.length_cons, List.length_nil]
        omega
      · intro x hx
        have hx' : x ∈ c :: cs := (List.erase_sublist _ _).mem hx
        rw [hcs'] at hx'
        exact List.mem_range.mp hx'
      · intro x hxR hx
        have hx' : x ∈ (c :: cs).erase (minElt (fun i => st.gcounts.getD i 0) c cs) := hx
        have hxne : x ≠ minElt (fun i => st.gcounts.getD i 0) c cs :=
          (hnd'.mem_erase_iff.mp hx').1
        change (st.zcounts.set (minElt (fun i => st.gcounts.getD i 0) c cs)
          (st.zcounts.getD (minElt (fun i => st.gcounts.getD i 0) c cs) 0 + 1)).getD x 0 = _
        rw [getD_set_ne _ _ _ _ (fun e => hxne e.symm)]
        have := hout x hxR (by rw [hcands]; exact List.not_mem_nil _)
        simpa [hm00] using this
      · intro x hxR hx
        have hxr : x = minElt (fun i => st.gcounts.getD i 0) c cs := by
          by_contra hne'
          exact hx (hnd'.mem_erase_iff.mpr ⟨hne', by rw [hcs']; exact List.mem_range.mpr hxR⟩)
        change (st.zcounts.set (minElt (fun i => st.gcounts.getD i 0) c cs)
          (st.zcounts.getD (minElt (fun i => st.gcounts.getD i 0) c cs) 0 + 1)).getD x 0 = _
        rw [hxr, getD_set_self _ _ _ (by omega), hcnt_r]
        simp
      · simpa using hzlen
  · have hclen : st.cands.length = R - m := hmne hm00
    have hne : st.cands ≠ [] := by
      intro hc
      rw [hc] at hclen
      simp at hclen
      omega
    have hcs' : c :: cs = st.cands := by
      rw [← hcs]; unfold effCands; rw [if_neg hne]
    have hrcands : minElt (fun i => st.gcounts.getD i 0) c cs ∈ st.cands := by
      rw [← hcs']; exact hrmem
    have hrR : minElt (fun i => st.gcounts.getD i 0) c cs < R := hmem _ hrcands
    have hcnt_r : st.zcounts.getD (minElt (fun i => st.gcounts.getD i 0) c cs) 0 = q :=
      hin _ hrR hrcands
    have hnd' : (c :: cs).Nodup := by rw [hcs']; exact hnd
    have hlenE : ((c :: cs).erase (minElt (fun i => st.gcounts.getD i 0) c cs)).length
        = R - m - 1 := by
      rw [List.length_erase_of_mem hrmem, hcs', hclen]
    by_cases hmR : m + 1 = R
    · have hsing : st.cands = [minElt (fun i => st.gcounts.getD i 0) c cs] := by
        have h1 : st.cands.length = 1 := by omega
        obtain ⟨a, ha⟩ := List.length_eq_one.mp h1
        rw [ha] at hrcands
        rcases List.mem_cons.mp hrcands with he | hc
        · rw [ha, he]
        · cases hc
      refine ⟨q + 1, 0, ?_, hR, hnd'.erase _, ?_, fun _ => ?_, ?_, ?_, ?_, ?_⟩
      · simp only [List.length_append, List.length_cons, List.length_nil]
        have hqR : (q + 1) * R = q * R + R := Nat.succ_mul q R
        omega
      · intro x hx
        exact hmem x (by rw [← hcs']; exact (List.erase_sublist _ _).mem hx)
      · show (c :: cs).erase (minElt (fun i => st.gcounts.getD i 0) c cs) = []
        exact List.length_eq_zero.mp (by omega)
      · intro hne'; exact absurd rfl hne'
      · intro x _ hx
        have hx' : x ∈ (c :: cs).erase (minElt (fun i => st.gcounts.getD i 0) c cs) := hx
        rw [List.length_eq_zero.mp (by omega : ((c :: cs).erase
          (minElt (fun i => st.gcounts.getD i 0) c cs)).length = 0)] at hx'
        cases hx'
      · intro x hxR _
        change (st.zcounts.set (minElt (fun i => st.gcounts.getD i 0) c cs)
          (st.zcounts.getD (minElt (fun i => st.gcounts.getD i 0) c cs) 0 + 1)).getD x 0 = _
        by_cases hxr : x = minElt (fun i => st.gcounts.getD i 0) c cs
        · rw [hxr, getD_set_self _ _ _ (by omega), hcnt_r]
          simp
        · rw [getD_set_ne _ _ _ _ (fun e => hxr e.symm)]
          have hxnotc : x ∉ st.cands := by
            rw [hsing]
            intro hc
            rcases List.mem_cons.mp hc with he | hc'
            · exact hxr he
            · cases hc'
          have := hout x hxR hxnotc
          rw [if_neg hm00] at this
          rw [this]
          simp
      · simpa using hzlen
    · refine ⟨q, m + 1, ?_, by omega, hnd'.erase _, ?_,
        fun h1 => absurd h1 (by omega), fun _ => ?_, ?_, ?_, ?_⟩
      · simp only [List.length_append, List.length_cons, List.length_nil]
        omega
      · intro x hx
        exact hmem x (by rw [← hcs']; exact (List.erase_sublist _ _).mem hx)
      · show ((c :: cs).erase (minElt (fun i => st.gcounts.getD i 0) c cs)).length = R - (m + 1)
        omega
      · intro x hxR hx
        have hx' : x ∈ (c :: cs).erase (minElt (fun i => st.gcounts.getD i 0) c cs) := hx
        have hxne : x ≠ minElt (fun i => st.gcounts.getD i 0) c cs :=
          (hnd'.mem_erase_iff.mp hx').1
        change (st.zcounts.set (minElt (fun i => st.gcounts.getD i 0) c cs)
          (st.zcounts.getD (minElt (fun i => st.gcounts.getD i 0) c cs) 0 + 1)).getD x 0 = _
        rw [getD_set_ne _ _ _ _ (fun e => hxne e.symm)]
        exact hin x hxR (by rw [← hcs']; exact (List.erase_sublist _ _).mem hx')
      · intro x hxR hx
        change (st.zcounts.set (minElt (fun i => st.gcounts.getD i 0) c cs)
          (st.zcounts.getD (minElt (fun i => st.gcounts.getD i 0) c cs) 0 + 1)).getD x 0 = _
        rw [if_neg (by omega : ¬ (m + 1 = 0))]
        by_cases hxr : x = minElt (fun i => st.gcounts.getD i 0) c cs
        · rw [hxr, getD_set_self _ _ _ (by omega), hcnt_r]
        · rw [getD_set_ne _ _ _ _ (fun e => hxr e.symm)]
          have hxnotc : x ∉ st.cands := by
            intro hc
            exact hx (hnd'.mem_erase_iff.mpr ⟨hxr, by rw [hcs']; exact hc⟩)
          have := hout x hxR hxnotc
          rw [if_neg hm00] at this
          exact this
      · simpa using hzlen

theorem distribute_zInv (R : Nat) (hR : 0 < R) (lens : List Nat) :
    zInv R (distribute R lens) := by
  unfold distribute
  have hfold : ∀ (L : List Nat) (st : DistState), zInv R st → zInv R (L.foldl (distStep R) st) := by
    intro L
    induction L with
    | nil => intro st h; exact h
    | cons a L ih => intro st h; exact ih _ (zInv_step R hR st a h)
  exact hfold lens _ (zInv_init R hR)

theorem distStep_assign_length (R : Nat) (hR : 0 < R) (st : DistState) (len : Nat) :
    (distStep R st len).assign.length = st.assign.length + 1 := by
  rcases hcs : effCands R st.cands with _ | ⟨c, cs⟩
  · exact absurd hcs (effCands_ne_nil R hR _)
  · rw [distStep_eq R st len c cs hcs]
    simp

theorem distribute_assign_length (R : Nat) (hR : 0 < R) (lens : List Nat) :
    (distribute R lens).assign.length = lens.length := by
  unfold distribute
  have hfold : ∀ (L : List Nat) (st : DistState),
      (L.foldl (distStep R) st).assign.length = st.assign.length + L.length := by
    intro L
    induction L with
    | nil => intro st; simp
    | cons a L ih =>
      intro st
      rw [List.foldl_cons, ih, distStep_assign_length R hR]
      simp
      omega
  rw [hfold lens (distInit R)]
  simp [distInit]

/-- Claim C10: after distribution over R ranks, per-rank column counts are
balanced to within one: any two ranks' column counts differ by at most 1,
and every rank receives either floor(C / R) or ceil(C / R) of the C
columns (the candidate-erasure loop hands each rank exactly one column per
refill round). -/
theorem C10_column_balance (R : Nat) (hR : 0 < R) (lens : List Nat) (r r' : Nat)
    (hr : r < R) (hr' : r' < R) :
    (distribute R lens).zcounts.getD r 0 ≤ (distribute R lens).zcounts.getD r' 0 + 1 ∧
    ((distribute R lens).zcounts.getD r 0 = lens.length / R ∨
      (distribute R lens).zcounts.getD r 0 = (lens.length + R - 1) / R) := by
  obtain ⟨q, m, hk, hm, hnd, hmem, hm0, hmne, hin, hout, hzlen⟩ := distribute_zInv R hR lens
  rw [distribute_assign_length R hR lens] at hk
  have hcount : ∀ x, x < R → (distribute R lens).zcounts.getD x 0 = q ∨
      ((distribute R lens).zcounts.getD x 0 = q + 1 ∧ m ≠ 0) := by
    intro x hx
    by_cases hxc : x ∈ (distribute R lens).cands
    · exact Or.inl (hin x hx hxc)
    · have hval := hout x hx hxc
      by_cases hm0' : m = 0
      · rw [if_pos hm0'] at hval; exact Or.inl hval
      · rw [if_neg hm0'] at hval; exact Or.inr ⟨hval, hm0'⟩
  have hfloor : lens.length / R = q := by
    rw [hk, show q * R + m = m + R * q by ring, Nat.add_mul_div_left m q hR,
      Nat.div_eq_of_lt hm]
    omega
  have hceil : (lens.length + R - 1) / R = if m = 0 then q else q + 1 := by
    by_cases hm0' : m = 0
    · rw [if_pos hm0', hk, hm0']
      have hqR : q * R = R * q := Nat.mul_comm q R
      have h1 : q * R + 0 + R - 1 = (R - 1) + R * q := by omega
      rw [h1, Nat.add_mul_div_left _ q hR, Nat.div_eq_of_lt (by omega)]
      omega
    · rw [if_neg hm0', hk]
      have hqR : q * R = R * q := Nat.mul_comm q R
      have hR1 : R * (q + 1) = R * q + R := by ring
      have h1 : q * R + m + R - 1 = (m - 1) + R * (q + 1) := by omega
      rw [h1, Nat.add_mul_div_left _ (q + 1) hR, Nat.div_eq_of_lt (by omega)]
      omega
  constructor
  · rcases hcount r hr with h1 | ⟨h1, _⟩ <;> rcases hcount r' hr' with h2 | ⟨h2, _⟩ <;> omega
  · rcases hcount r hr with h1 | ⟨h1, hm0'⟩
    · left; rw [h1, hfloor]
    · right; rw [h1, hceil, if_neg hm0']

theorem C10_column_balance_witness :
    (distribute 2 [3, 2, 2]).zcounts.getD 0 0 ≤ (distribute 2 [3, 2, 2]).zcounts.getD 1 0 + 1 ∧
    ((distribute 2 [3, 2, 2]).zcounts.getD 0 0 = ([3, 2, 2] : List Nat).length / 2 ∨
      (distribute 2 [3, 2, 2]).zcounts.getD 0 0 = (([3, 2, 2] : List Nat).length + 2 - 1) / 2) :=
  C10_column_balance 2 (by decide) [3, 2, 2] 0 1 (by decide) (by decide)

/-! Claim C5: upper bound on per-rank vector counts. -/

/-- Balance invariant of the distribution loop over a descending column
list: (A) any two ranks' vector counts differ by at most the maximum
column size cmax; (B) a rank already served in the current round is, up to
cmax, at least as loaded as any still-candidate rank will be after
receiving any remaining column.  Both are kept relative to the remaining
input rem. -/
def DInv (R cmax : Nat) (rem : List Nat) (st : DistState) : Prop :=
  st.gcounts.length = R ∧ st.cands.Nodup ∧ (∀ x ∈ st.cands, x < R) ∧
  (∀ a b, a < R → b < R → st.gcounts.getD a 0 ≤ st.gcounts.getD b 0 + cmax) ∧
  (∀ b, b < R → b ∉ effCands R st.cands →
    ∀ a ∈ effCands R st.cands, ∀ c ∈ rem,
      st.gcounts.getD a 0 + c ≤ st.gcounts.getD b 0 + cmax)

theorem effCands_mem_lt (R : Nat) (cands : List Nat) (hmem : ∀ x ∈ cands, x < R) :
    ∀ x ∈ effCands R cands, x < R := by
  unfold effCands
  split
  · intro x hx; exact List.mem_range.mp hx
  · exact hmem

theorem effCands_nodup (R : Nat) (cands : List Nat) (hnd : cands.Nodup) :
    (effCands R cands).Nodup := by
  unfold effCands
  split
  · exact List.nodup_range R
  · exact hnd

theorem DInv_step (R cmax : Nat) (hR : 0 < R) (st : DistState) (c : Nat) (rem : List Nat)
    (hc : c ≤ cmax) (hrem : ∀ x ∈ rem, x ≤ c) (h : DInv R cmax (c :: rem) st) :
    DInv R cmax rem (distStep R st c) := by
  obtain ⟨hlen, hnd, hmem, hA, hB⟩ := h
  rcases hcs : effCands R st.cands with _ | ⟨e, es⟩
  · exact absurd hcs (effCands_ne_nil R hR _)
  rw [distStep_eq R st c e es hcs]
  have hmemE : ∀ x ∈ e :: es, x < R := by
    rw [← hcs]; exact effCands_mem_lt R st.cands hmem
  have hndE : (e :: es).Nodup := by
    rw [← hcs]; exact effCands_nodup R st.cands hnd
  have hrmem : minElt (fun i => st.gcounts.getD i 0) e es ∈ e :: es := minElt_mem _ es e
  have hrR : minElt (fun i => st.gcounts.getD i 0) e es < R := hmemE _ hrmem
  have hrmin : ∀ a ∈ e :: es,
      st.gcounts.getD (minElt (fun i => st.gcounts.getD i 0) e es) 0 ≤ st.gcounts.getD a 0 :=
    minElt_le (fun i => st.gcounts.getD i 0) es e
  have hnew : ∀ x, (st.gcounts.set (minElt (fun i => st.gcounts.getD i 0) e es)
      (st.gcounts.getD (minElt (fun i => st.gcounts.getD i 0) e es) 0 + c)).getD x 0
      = if x = minElt (fun i => st.gcounts.getD i 0) e es
        then st.gcounts.getD (minElt (fun i => st.gcounts.getD i 0) e es) 0 + c
        else st.gcounts.getD x 0 := by
    intro x
    by_cases hxr : x = minElt (fun i => st.gcounts.getD i 0) e es
    · rw [if_pos hxr, hxr, getD_set_self _ _ _ (by omega)]
    · rw [if_neg hxr, getD_set_ne _ _ _ _ (fun he => hxr he.symm)]
  refine ⟨?_, ?_, ?_, ?_, ?_⟩
  · show (st.gcounts.set _ _).length = R
    simp [hlen]
  · exact hndE.erase _
  · intro x hx
    exact hmemE x ((List.erase_sublist _ _).mem hx)
  · intro a b ha hb
    change (st.gcounts.set _ _).getD a 0 ≤ (st.gcounts.set _ _).getD b 0 + cmax
    rw [hnew a, hnew b]
    by_cases har : a = minElt (fun i => st.gcounts.getD i 0) e es
    · rw [if_pos har]
      by_cases hbr : b = minElt (fun i => st.gcounts.getD i 0) e es
      · rw [if_pos hbr]; omega
      · rw [if_neg hbr]
        by_cases hbe : b ∈ e :: es
        · have := hrmin b hbe
          omega
        · have hbnot : b ∉ effCands R st.cands := by rw [hcs]; exact hbe
          have := hB b hb hbnot (minElt (fun i => st.gcounts.getD i 0) e es)
            (by rw [hcs]; exact hrmem) c (List.mem_cons_self c rem)
          omega
    · rw [if_neg har]
      by_cases hbr : b = minElt (fun i => st.gcounts.getD i 0) e es
      · rw [if_pos hbr]
        have := hA a (minElt (fun i => st.gcounts.getD i 0) e es) ha hrR
        omega
      · rw [if_neg hbr]
        exact hA a b ha hb
  · intro b hb hbnot a ha c2 hc2
    rcases hE : (e :: es).erase (minElt (fun i => st.gcounts.getD i 0) e es) with _ | ⟨w, ws⟩
    · exfalso
      apply hbnot
      change b ∈ effCands R ((e :: es).erase (minElt (fun i => st.gcounts.getD i 0) e es))
      rw [hE]
      unfold effCands
      rw [if_pos rfl]
      exact List.mem_range.mpr hb
    · have haE : a ∈ (e :: es).erase (minElt (fun i => st.gcounts.getD i 0) e es) := by
        have ha' : a ∈ effCands R
            ((e :: es).erase (minElt (fun i => st.gcounts.getD i 0) e es)) := ha
        rw [hE] at ha' ⊢
        unfold effCands at ha'
        rw [if_neg (by simp)] at ha'
        exact ha'
      have hane : a ≠ minElt (fun i => st.gcounts.getD i 0) e es :=
        (hndE.mem_erase_iff.mp haE).1
      have haR : a < R := hmemE a ((List.erase_sublist _ _).mem haE)
      have hc2c : c2 ≤ c := hrem c2 hc2
      change (st.gcounts.set _ _).getD a 0 + c2 ≤ (st.gcounts.set _ _).getD b 0 + cmax
      rw [hnew a, hnew b, if_neg hane]
      by_cases hbr : b = minElt (fun i => st.gcounts.getD i 0) e es
      · rw [if_pos hbr]
        have := hA a (minElt (fun i => st.gcounts.getD i 0) e es) haR hrR
        omega
      · rw [if_neg hbr]
        have hbnotE : b ∉ e :: es := by
          intro hbe
          apply hbnot
          change b ∈ effCands R ((e :: es).erase (minElt (fun i => st.gcounts.getD i 0) e es))
          rw [hE]
          unfold effCands
          rw [if_neg (by simp)]
          rw [← hE]
          exact hndE.mem_erase_iff.mpr ⟨hbr, hbe⟩
        have hbnotold : b ∉ effCands R st.cands := by rw [hcs]; exact hbnotE
        have := hB b hb hbnotold a (by rw [hcs]; exact (List.erase_sublist _ _).mem haE)
          c2 (List.mem_cons_of_mem c hc2)
        omega

theorem DInv_after_first (R cmax : Nat) (hR : 0 < R) (l0 : Nat) (T : List Nat)
    (hl0 : l0 ≤ cmax) (hT : ∀ x ∈ T, x ≤ cmax) :
    DInv R cmax T (distStep R (distInit R) l0) := by
  rcases hcs : effCands R (distInit R).cands with _ | ⟨e, es⟩
  · exact absurd hcs (effCands_ne_nil R hR _)
  rw [distStep_eq R (distInit R) l0 e es hcs]
  have hmemE : ∀ x ∈ e :: es, x < R := by
    rw [← hcs]
    exact effCands_mem_lt R (distInit R).cands (by intro x hx; cases hx)
  have hndE : (e :: es).Nodup := by
    rw [← hcs]
    exact effCands_nodup R (distInit R).cands List.nodup_nil
  have hrmem : minElt (fun i => (distInit R).gcounts.getD i 0) e es ∈ e :: es :=
    minElt_mem _ es e
  have hrR : minElt (fun i => (distInit R).gcounts.getD i 0) e es < R := hmemE _ hrmem
  have hzero : ∀ x, (distInit R).gcounts.getD x 0 = 0 := by
    intro x
    simp [distInit, getD_replicate_zero]
  have hlen0 : (distInit R).gcounts.length = R := by simp [distInit]
  have hnew : ∀ x, ((distInit R).gcounts.set
      (minElt (fun i => (distInit R).gcounts.getD i 0) e es)
      ((distInit R).gcounts.getD (minElt (fun i => (distInit R).gcounts.getD i 0) e es) 0
        + l0)).getD x 0
      = if x = minElt (fun i => (distInit R).gcounts.getD i 0) e es then l0 else 0 := by
    intro x
    by_cases hxr : x = minElt (fun i => (distInit R).gcounts.getD i 0) e es
    · rw [if_pos hxr, hxr, getD_set_self _ _ _ (by omega), hzero]
      omega
    · rw [if_neg hxr, getD_set_ne _ _ _ _ (fun he => hxr he.symm), hzero]
  refine ⟨?_, hndE.erase _, ?_, ?_, ?_⟩
  · show ((distInit R).gcounts.set _ _).length = R
    simp [distInit]
  · intro x hx
    exact hmemE x ((List.erase_sublist _ _).mem hx)
  · intro a b _ _
    change ((distInit R).gcounts.set _ _).getD a 0
      ≤ ((distInit R).gcounts.set _ _).getD b 0 + cmax
    rw [hnew a, hnew b]
    split <;> split <;> omega
  · intro b hb hbnot a ha c2 hc2
    have hc2m : c2 ≤ cmax := hT c2 hc2
    rcases hE : (e :: es).erase (minElt (fun i => (distInit R).gcounts.getD i 0) e es)
      with _ | ⟨w, ws⟩
    · exfalso
      apply hbnot
      change b ∈ effCands R
        ((e :: es).erase (minElt (fun i => (distInit R).gcounts.getD i 0) e es))
      rw [hE]
      unfold effCands
      rw [if_pos rfl]
      exact List.mem_range.mpr hb
    · have haE : a ∈ (e :: es).erase
          (minElt (fun i => (distInit R).gcounts.getD i 0) e es) := by
        have ha' : a ∈ effCands R
            ((e :: es).erase (minElt (fun i => (distInit R).gcounts.getD i 0) e es)) := ha
        rw [hE] at ha' ⊢
        unfold effCands at ha'
        rw [if_neg (by simp)] at ha'
        exact ha'
      have hane : a ≠ minElt (fun i => (distInit R).gcounts.getD i 0) e es :=
        (hndE.mem_erase_iff.mp haE).1
      change ((distInit R).gcounts.set _ _).getD a 0 + c2
        ≤ ((distInit R).gcounts.set _ _).getD b 0 + cmax
      rw [hnew a, hnew b, if_neg hane]
      split <;> omega

theorem distStep_sum (R : Nat) (hR : 0 < R) (st : DistState) (len : Nat)
    (hlen : st.gcounts.length = R) (hmem : ∀ x ∈ st.cands, x < R) :
    (distStep R st len).gcounts.sum = st.gcounts.sum + len := by
  rcases hcs : effCands R st.cands with _ | ⟨e, es⟩
  · exact absurd hcs (effCands_ne_nil R hR _)
  rw [distStep_eq R st len e es hcs]
  have hmemE : ∀ x ∈ e :: es, x < R := by
    rw [← hcs]; exact effCands_mem_lt R st.cands hmem
  have hrR : minElt (fun i => st.gcounts.getD i 0) e es < R :=
    hmemE _ (minElt_mem _ es e)
  show (st.gcounts.set _ _).sum = st.gcounts.sum + len
  exact sum_set_add st.gcounts _ len (by omega)

theorem DInv_fold (R cmax : Nat) (hR : 0 < R) (T : List Nat) :
    ∀ (st : DistState), List.Pairwise (fun a b => b ≤ a) T → (∀ x ∈ T, x ≤ cmax) →
      DInv R cmax T st →
      DInv R cmax [] (T.foldl (distStep R) st) ∧
      (T.foldl (distStep R) st).gcounts.sum = st.gcounts.sum + T.sum := by
  induction T with
  | nil => intro st _ _ h; exact ⟨h, by simp⟩
  | cons c rem ih =>
    intro st hp hbound h
    rw [List.foldl_cons]
    have hstep : DInv R cmax rem (distStep R st c) :=
      DInv_step R cmax hR st c rem (hbound c (List.mem_cons_self c rem))
        (fun x hx => (List.pairwise_cons.mp hp).1 x hx) h
    have hsum : (distStep R st c).gcounts.sum = st.gcounts.sum + c :=
      distStep_sum R hR st c h.1 h.2.2.1
    obtain ⟨hinv, hs⟩ := ih (distStep R st c) hp.of_cons
      (fun x hx => hbound x (List.mem_cons_of_mem c hx)) hstep
    refine ⟨hinv, ?_⟩
    rw [hs, hsum]
    simp [List.sum_cons]
    omega

theorem sum_getD_range (l : List Nat) :
    (Finset.range l.length).sum (fun b => l.getD b 0) = l.sum := by
  induction l with
  | nil => rfl
  | cons c cs ih =>
    show (Finset.range (cs.length + 1)).sum (fun b => (c :: cs).getD b 0) = (c :: cs).sum
    rw [Finset.sum_range_succ']
    have h1 : ∀ i, (c :: cs).getD (i + 1) 0 = cs.getD i 0 := fun i => rfl
    simp only [h1]
    rw [ih]
    show cs.sum + c = (c :: cs).sum
    rw [List.sum_cons]
    omega

theorem mem_le_foldr_max (l : List Nat) (x : Nat) (hx : x ∈ l) : x ≤ l.foldr max 0 := by
  induction l with
  | nil => cases hx
  | cons a l ih =>
    rcases List.mem_cons.mp hx with rfl | hx'
    · exact Nat.le_max_left _ _
    · exact Nat.le_trans (ih hx') (Nat.le_max_right _ _)

theorem greedy_bound_sorted (R cmax : Nat) (hR : 0 < R) (l0 : Nat) (T : List Nat)
    (hp : List.Pairwise (fun a b => b ≤ a) T)
    (hl0 : l0 ≤ cmax) (hT : ∀ x ∈ T, x ≤ cmax) (r : Nat) (hr : r < R) :
    (distribute R (l0 :: T)).gcounts.getD r 0 ≤ ((l0 + T.sum) + R - 1) / R + cmax := by
  have h0 : DInv R cmax T (distStep R (distInit R) l0) :=
    DInv_after_first R cmax hR l0 T hl0 hT
  have hfold := DInv_fold R cmax hR T (distStep R (distInit R) l0) hp hT h0
  have hdist : distribute R (l0 :: T) = T.foldl (distStep R) (distStep R (distInit R) l0) := by
    unfold distribute
    rw [List.foldl_cons]
  obtain ⟨hinv, hsum⟩ := hfold
  rw [← hdist] at hinv hsum
  have hsum1 : (distStep R (distInit R) l0).gcounts.sum = l0 := by
    have := distStep_sum R hR (distInit R) l0 (by simp [distInit])
      (by intro x hx; cases hx)
    rw [this]
    simp [distInit]
  rw [hsum1] at hsum
  obtain ⟨hlenf, _, _, hA, _⟩ := hinv
  obtain ⟨rm, hrmmem, hrmmin⟩ := Finset.exists_min_image (Finset.range R)
    (fun x => (distribute R (l0 :: T)).gcounts.getD x 0) ⟨0, Finset.mem_range.mpr hR⟩
  have hrmR : rm < R := Finset.mem_range.mp hrmmem
  have hmul : R * (distribute R (l0 :: T)).gcounts.getD rm 0 ≤ l0 + T.sum := by
    have hle : (Finset.range R).sum (fun _ => (distribute R (l0 :: T)).gcounts.getD rm 0)
        ≤ (Finset.range R).sum (fun x => (distribute R (l0 :: T)).gcounts.getD x 0) := by
      apply Finset.sum_le_sum
      intro i hi
      exact hrmmin i hi
    rw [Finset.sum_const, Finset.card_range, smul_eq_mul] at hle
    have hsums : (Finset.range R).sum (fun x => (distribute R (l0 :: T)).gcounts.getD x 0)
        = l0 + T.sum := by
      have := sum_getD_range (distribute R (l0 :: T)).gcounts
      rw [hlenf] at this
      rw [this, hsum]
    rw [hsums] at hle
    exact hle
  have hdiv : (distribute R (l0 :: T)).gcounts.getD rm 0 ≤ (l0 + T.sum) / R :=
    (Nat.le_div_iff_mul_le hR).mpr (by rw [Nat.mul_comm] at hmul; exact hmul)
  have hceil : (l0 + T.sum) / R ≤ ((l0 + T.sum) + R - 1) / R :=
    Nat.div_le_div_right (by omega)
  have hAr := hA r rm hr hrmR
  omega

theorem sortColumns_perm (cols : List ZColumn) : (sortColumns cols).Perm cols := by
  rcases hswap : swapZeroCol cols with _ | ⟨c, rest⟩
  · have h1 : sortColumns cols = [] := by unfold sortColumns; rw [hswap]
    rw [h1]
    have h2 := swapZeroCol_perm cols
    rw [hswap] at h2
    exact h2
  · have h1 : sortColumns cols = c :: sortDescByLen rest := by unfold sortColumns; rw [hswap]
    rw [h1]
    have h2 := swapZeroCol_perm cols
    rw [hswap] at h2
    exact ((List.perm_insertionSort _ rest).cons c).trans h2

/-- C5: after the greedy distribution of the sorted columns over R ranks,
every rank's G-vector count is at most the ceiling of the total vector
count divided by R, plus the size of the largest single column. -/
theorem C5_greedy_vector_bound (cols : List ZColumn) (R : Nat) (hR : 0 < R) (r : Nat)
    (hr : r < R) :
    (distribute R ((sortColumns cols).map colLen)).gcounts.getD r 0
      ≤ ((cols.map colLen).sum + R - 1) / R + (cols.map colLen).foldr max 0 := by
  rcases hswap : swapZeroCol cols with _ | ⟨c, rest⟩
  · have h1 : sortColumns cols = [] := by unfold sortColumns; rw [hswap]
    rw [h1]
    show (distInit R).gcounts.getD r 0 ≤ _
    have hz : (distInit R).gcounts.getD r 0 = 0 := by
      simp [distInit, getD_replicate_zero]
    rw [hz]
    exact Nat.zero_le _
  · have h1 : sortColumns cols = c :: sortDescByLen rest := by unfold sortColumns; rw [hswap]
    rw [h1]
    have hperm : (c :: sortDescByLen rest).Perm cols := by
      rw [← h1]; exact sortColumns_perm cols
    have hmap : (c :: sortDescByLen rest).map colLen
        = colLen c :: (sortDescByLen rest).map colLen := rfl
    rw [hmap]
    have hpair : List.Pairwise (fun a b => b ≤ a) ((sortDescByLen rest).map colLen) :=
      (sortDesc_pairwise rest).map colLen (fun a b h => h)
    have hl0 : colLen c ≤ (cols.map colLen).foldr max 0 :=
      mem_le_foldr_max _ _
        (List.mem_map_of_mem colLen (hperm.subset (List.mem_cons_self c _)))
    have hT : ∀ x ∈ (sortDescByLen rest).map colLen, x ≤ (cols.map colLen).foldr max 0 := by
      intro x hx
      obtain ⟨col, hcol, rfl⟩ := List.mem_map.mp hx
      exact mem_le_foldr_max _ _
        (List.mem_map_of_mem colLen (hperm.subset (List.mem_cons_of_mem c hcol)))
    have hb := greedy_bound_sorted R ((cols.map colLen).foldr max 0) hR (colLen c)
      ((sortDescByLen rest).map colLen) hpair hl0 hT r hr
    have hsum : colLen c + ((sortDescByLen rest).map colLen).sum = (cols.map colLen).sum := by
      have h3 := (hperm.map colLen).sum_eq
      rw [List.map_cons, List.sum_cons] at h3
      exact h3
    rw [← hsum]
    exact hb

theorem C5_greedy_vector_bound_witness :
    (0 : Nat) < 2 ∧
    (distribute 2 ((sortColumns cexCols).map colLen)).gcounts.getD 0 0
      ≤ ((cexCols.map colLen).sum + 2 - 1) / 2 + (cexCols.map colLen).foldr max 0 :=
  ⟨by decide, C5_greedy_vector_bound cexCols 2 (by decide) 0 (by decide)⟩

/-! Claim C6: shell ordering and the contents of shell 0. -/

theorem getD_map_lt {α β : Type} (f : α → β) (l : List α) (i : Nat) (hi : i < l.length)
    (d : α) (d2 : β) : (l.map f).getD i d2 = f (l.getD i d) := by
  rw [List.getD_eq_getElem _ _ (by simpa using hi), List.getD_eq_getElem _ _ hi,
    List.getElem_map]

theorem qnorm_zero (d : Nat) : qnorm 0 d = qzero := by
  unfold qnorm qzero
  by_cases hd : d = 0
  · subst hd; simp
  · have hg : (0 : Int).natAbs.gcd d = d := by simp
    rw [hg, if_neg hd]
    simp [Nat.div_self (Nat.pos_of_ne_zero hd)]

theorem qmul_qzero (a : QVal) : qmul a qzero = qzero := by
  unfold qmul
  have h1 : a.num * qzero.num = 0 := by simp [qzero]
  rw [h1]
  exact qnorm_zero _

theorem qadd_qzero_qzero : qadd qzero qzero = qzero := by decide

theorem qdot_qzero_right (a : QVec) : qdot a qvecZero = qzero := by
  unfold qdot qvecZero
  rw [show (⟨qzero, qzero, qzero⟩ : QVec).x = qzero from rfl,
    show (⟨qzero, qzero, qzero⟩ : QVec).y = qzero from rfl,
    show (⟨qzero, qzero, qzero⟩ : QVec).z = qzero from rfl,
    qmul_qzero, qmul_qzero, qmul_qzero, qadd_qzero_qzero, qadd_qzero_qzero]

theorem qmulVec_qzero (M : QMat) : qmulVec M qvecZero = qvecZero := by
  unfold qmulVec
  rw [qdot_qzero_right, qdot_qzero_right, qdot_qzero_right]
  rfl

theorem mem_insKey (k x : Nat) (l : List Nat) : x ∈ insKey k l ↔ x = k ∨ x ∈ l := by
  induction l with
  | nil => simp [insKey]
  | cons a as ih =>
    unfold insKey
    by_cases h1 : k < a
    · rw [if_pos h1]
      simp only [List.mem_cons]
    · rw [if_neg h1]
      by_cases h2 : k = a
      · rw [if_pos h2]
        subst h2
        simp only [List.mem_cons]
        tauto
      · rw [if_neg h2]
        simp only [List.mem_cons, ih]
        tauto

theorem insKey_pairwise (k : Nat) (l : List Nat) (h : List.Pairwise (· < ·) l) :
    List.Pairwise (· < ·) (insKey k l) := by
  induction l with
  | nil => simp [insKey]
  | cons a as ih =>
    unfold insKey
    rcases List.pairwise_cons.mp h with ⟨ha, has⟩
    by_cases h1 : k < a
    · rw [if_pos h1]
      refine List.pairwise_cons.mpr ⟨?_, h⟩
      intro y hy
      rcases List.mem_cons.mp hy with rfl | hy'
      · exact h1
      · exact Nat.lt_trans h1 (ha y hy')
    · rw [if_neg h1]
      by_cases h2 : k = a
      · rw [if_pos h2]; exact h
      · rw [if_neg h2]
        refine List.pairwise_cons.mpr ⟨?_, ih has⟩
        intro y hy
        rcases (mem_insKey k y as).mp hy with rfl | hy'
        · omega
        · exact ha y hy'

theorem sortedKeys_aux_pairwise (keys : List Nat) :
    ∀ acc, List.Pairwise (· < ·) acc →
      List.Pairwise (· < ·) (keys.foldl (fun a k => insKey k a) acc) := by
  induction keys with
  | nil => intro acc h; exact h
  | cons k ks ih =>
    intro acc h
    rw [List.foldl_cons]
    exact ih _ (insKey_pairwise k acc h)

theorem sortedKeys_pairwise (keys : List Nat) :
    List.Pairwise (· < ·) (sortedKeys keys) :=
  sortedKeys_aux_pairwise keys [] List.Pairwise.nil

theorem mem_sortedKeys_aux (keys : List Nat) :
    ∀ acc x, x ∈ keys.foldl (fun a k => insKey k a) acc ↔ x ∈ acc ∨ x ∈ keys := by
  induction keys with
  | nil => intro acc x; simp
  | cons k ks ih =>
    intro acc x
    rw [List.foldl_cons, ih (insKey k acc) x, mem_insKey]
    simp only [List.mem_cons]
    tauto

theorem mem_sortedKeys (keys : List Nat) (x : Nat) : x ∈ sortedKeys keys ↔ x ∈ keys := by
  unfold sortedKeys
  rw [mem_sortedKeys_aux]
  simp

theorem div_mul_div_le (n1 n2 d g1 g2 : Nat) (h : n1 ≤ n2) (h1 : g1 ∣ n1) (h1d : g1 ∣ d)
    (h2 : g2 ∣ n2) (h2d : g2 ∣ d) (hp1 : 0 < g1) (hp2 : 0 < g2) :
    n1 / g1 * (d / g2) ≤ n2 / g2 * (d / g1) := by
  refine Nat.le_of_mul_le_mul_right ?_ (Nat.mul_pos hp1 hp2)
  have e1 : n1 / g1 * (d / g2) * (g1 * g2) = n1 / g1 * g1 * (d / g2 * g2) := by ring
  have e2 : n2 / g2 * (d / g1) * (g1 * g2) = n2 / g2 * g2 * (d / g1 * g1) := by ring
  rw [e1, e2, Nat.div_mul_cancel h1, Nat.div_mul_cancel h2d, Nat.div_mul_cancel h2,
    Nat.div_mul_cancel h1d]
  exact Nat.mul_le_mul_right d h

theorem qleb_qnorm_nat_mono (n1 n2 d : Nat) (hd : 0 < d) (h : n1 ≤ n2) :
    qleb (qnorm (n1 : Int) d) (qnorm (n2 : Int) d) = true := by
  have hg1 : ¬ Nat.gcd n1 d = 0 := by
    intro h0
    rcases Nat.gcd_eq_zero_iff.mp h0 with ⟨_, h0d⟩
    omega
  have hg2 : ¬ Nat.gcd n2 d = 0 := by
    intro h0
    rcases Nat.gcd_eq_zero_iff.mp h0 with ⟨_, h0d⟩
    omega
  simp only [qnorm, Int.natAbs_ofNat]
  rw [if_neg hg1, if_neg hg2]
  simp only [qleb, decide_eq_true_eq]
  norm_cast
  exact div_mul_div_le n1 n2 d _ _ h (Nat.gcd_dvd_left n1 d) (Nat.gcd_dvd_right n1 d)
    (Nat.gcd_dvd_left n2 d) (Nat.gcd_dvd_right n2 d)
    (Nat.pos_of_ne_zero hg1) (Nat.pos_of_ne_zero hg2)

theorem shellLenOfKey_eq_qnorm (k : Nat) : shellLenOfKey k = qnorm (k : Int) 10000000000 := by
  unfold shellLenOfKey qmul qofInt
  norm_num

theorem shellLenOfKey_qleb_mono (k1 k2 : Nat) (h : k1 ≤ k2) :
    qleb (shellLenOfKey k1) (shellLenOfKey k2) = true := by
  rw [shellLenOfKey_eq_qnorm, shellLenOfKey_eq_qnorm]
  exact qleb_qnorm_nat_mono k1 k2 10000000000 (by norm_num) h

theorem sorted_head_zero (l : List Nat) (hp : List.Pairwise (· < ·) l) (h0 : (0 : Nat) ∈ l) :
    ∃ t, l = 0 :: t := by
  cases l with
  | nil => cases h0
  | cons a t =>
    rcases List.mem_cons.mp h0 with h | h
    · exact ⟨t, by rw [← h]⟩
    · have := (List.pairwise_cons.mp hp).1 0 h
      omega

theorem gkCartOf_strip (vk : QVec) (M : QMat) (cols cols' : List ZColumn)
    (fullIdx : List Nat) (h : cols.map stripOffset = cols'.map stripOffset) (ig : Nat) :
    gkCartOf vk M cols fullIdx ig = gkCartOf vk M cols' fullIdx ig := by
  unfold gkCartOf
  rw [gvecByFullIndex_strip_eq cols cols' h]

theorem construct_fields (vk : QVec) (M : QMat) (Gmax : QVal) (g : FFT3DGrid) (R : Nat)
    (comm : Communicator) (red : Bool) (gv : Gvec)
    (h : construct vk M Gmax g R comm red = some gv) :
    ∃ cols2 st fullIdx,
      indexStage vk M Gmax g R red = (cols2, gv.numGvec, st, fullIdx) ∧
      gv.gvecFullIndex = fullIdx ∧
      gv.gvecShell = (keysOf vk M cols2 fullIdx gv.numGvec).map
        (fun k => (sortedKeys (keysOf vk M cols2 fullIdx gv.numGvec)).indexOf k) ∧
      gv.gvecShellLen
        = (sortedKeys (keysOf vk M cols2 fullIdx gv.numGvec)).map shellLenOfKey ∧
      gv.zColumns.map stripOffset = cols2.map stripOffset ∧
      gvecByFullIndex cols2 (fullIdx.getD 0 0) = (0, 0, 0) := by
  unfold construct at h
  rcases hIS : indexStage vk M Gmax g R red with ⟨cols2, numGvec, st, fullIdx⟩
  rw [hIS] at h
  cases fullIdx with
  | nil => cases h
  | cons i0 rest =>
    simp only at h
    by_cases hz : (gvecByFullIndex cols2 i0).1 ≠ 0 ∨ (gvecByFullIndex cols2 i0).2.1 ≠ 0 ∨
        (gvecByFullIndex cols2 i0).2.2 ≠ 0
    · rw [if_pos hz] at h; cases h
    · rw [if_neg hz] at h
      push_neg at hz
      rcases hb : buildFftDistr comm.size R (mkBlockData st.gcounts).counts
          (mkBlockData st.zcounts).counts with _ | ⟨gfft, zfft⟩
      · rw [hb] at h; cases h
      · rw [hb] at h
        simp only at h
        rcases hp : pileGvec comm.size comm.rank R (mkBlockData st.gcounts).counts
          with _ | slab
        · rw [hp] at h; cases h
        · rw [hp] at h
          simp only [Option.some.injEq] at h
          subst h
          refine ⟨cols2, st, i0 :: rest, ?_, rfl, rfl, rfl, ?_, ?_⟩
          · rfl
          · exact strip_applyColOffsets comm.size zfft cols2
          · have hidx : (i0 :: rest).getD 0 0 = i0 := rfl
            rw [hidx]
            exact Prod.ext_iff.mpr ⟨hz.1, Prod.ext_iff.mpr ⟨hz.2.1, hz.2.2⟩⟩

/-- Claim C6 counterexample: with the k-point shift vk = (1/2, 0, 0), the
identity lattice and the one-point grid, the single G-vector is (0, 0, 0)
but G + vk has length 1/2, so the quantized shell key is 5e9 and the
representative length of shell 0 is 1/2, not 0: shell 0 holds the zero
G-VECTOR, but its length is the length of G + vk, which is nonzero for a
shifted set, refuting "shell 0 has length 0". -/
theorem C6_counterexample :
    (construct vkHalf idMat (qofInt 1) tinyGrid 1 ⟨1, 0⟩ false).map
        (fun gv => (gv.gvecShellLen.getD 0 qzero, gv.numGvec))
      = some (⟨1, 2⟩, 1) ∧ (⟨1, 2⟩ : QVal) ≠ qzero := by decide

/-- Claim C6 amended: the representative shell lengths are always
non-decreasing in shell-id order (the keys iterate in increasing order out
of the std::map).  The clause about shell 0 holds for an unshifted set:
when vk = 0 and the set is non-empty, shell 0 has representative length 0
and the zero vector (global index 0) lies in shell 0; if moreover every
other index has a nonzero quantized length key (no other vector collapses
onto key 0), shell 0 contains exactly the zero vector. -/
theorem C6_shell_order (vk : QVec) (M : QMat) (Gmax : QVal) (g : FFT3DGrid)
    (R : Nat) (comm : Communicator) (red : Bool) (gv : Gvec)
    (h : construct vk M Gmax g R comm red = some gv) :
    List.Pairwise (fun a b => qleb a b = true) gv.gvecShellLen ∧
    (vk = qvecZero → 0 < gv.numGvec →
      gv.gvecShellLen.getD 0 qzero = qzero ∧
      gv.gvecShell.getD 0 0 = 0 ∧
      ((∀ ig, ig < gv.numGvec → ig ≠ 0 →
          lenKey (qnormSq (gkCartOf vk M gv.zColumns gv.gvecFullIndex ig)) ≠ 0) →
        ∀ ig, ig < gv.numGvec → (gv.gvecShell.getD ig 0 = 0 ↔ ig = 0))) := by
  obtain ⟨cols2, st, fullIdx, hIS, hFI, hSH, hSL, hstrip, hzero⟩ :=
    construct_fields vk M Gmax g R comm red gv h
  constructor
  · rw [hSL]
    exact (sortedKeys_pairwise _).map shellLenOfKey
      (fun a b hab => shellLenOfKey_qleb_mono a b (Nat.le_of_lt hab))
  · intro hvk hnum
    subst hvk
    have hkl : (keysOf qvecZero M cols2 fullIdx gv.numGvec).length = gv.numGvec := by
      unfold keysOf
      rw [List.length_map, List.length_range]
    have hgk0 : gkCartOf qvecZero M cols2 fullIdx 0 = qvecZero := by
      simp only [gkCartOf]
      rw [hzero]
      have h1 : qvecAdd (qvecOfInt (0, 0, 0).1 (0, 0, 0).2.1 (0, 0, 0).2.2) qvecZero
          = qvecZero := by decide
      rw [h1]
      exact qmulVec_qzero M
    have hkey0 : (keysOf qvecZero M cols2 fullIdx gv.numGvec).getD 0 0 = 0 := by
      unfold keysOf
      rw [getD_range_map gv.numGvec 0 0 _ hnum, hgk0]
      decide
    have hmem0 : (0 : Nat) ∈ keysOf qvecZero M cols2 fullIdx gv.numGvec := by
      have hlt : 0 < (keysOf qvecZero M cols2 fullIdx gv.numGvec).length := by
        rw [hkl]; exact hnum
      rw [← hkey0, List.getD_eq_getElem _ _ hlt]
      exact List.getElem_mem _
    obtain ⟨t, hsk⟩ := sorted_head_zero _ (sortedKeys_pairwise _)
      ((mem_sortedKeys _ 0).mpr hmem0)
    have hshell0 : gv.gvecShell.getD 0 0 = 0 := by
      rw [hSH, getD_map_lt _ _ 0 (by rw [hkl]; exact hnum) 0 0, hkey0, hsk]
      exact List.indexOf_cons_self 0 t
    refine ⟨?_, hshell0, ?_⟩
    · rw [hSL, hsk]
      show shellLenOfKey 0 = qzero
      decide
    · intro hexact ig hig
      constructor
      · intro hsh0
        by_contra hig0
        have hkig : (keysOf qvecZero M cols2 fullIdx gv.numGvec).getD ig 0
            = lenKey (qnormSq (gkCartOf qvecZero M cols2 fullIdx ig)) := by
          unfold keysOf
          exact getD_range_map gv.numGvec ig 0 _ hig
        have hne : (keysOf qvecZero M cols2 fullIdx gv.numGvec).getD ig 0 ≠ 0 := by
          rw [hkig]
          have h2 := hexact ig hig hig0
          rw [hFI, gkCartOf_strip qvecZero M gv.zColumns cols2 fullIdx hstrip ig] at h2
          exact h2
        rw [hSH, getD_map_lt _ _ ig (by rw [hkl]; exact hig) 0 0, hsk,
          List.indexOf_cons] at hsh0
        have hb : ((0 : Nat) == (keysOf qvecZero M cols2 fullIdx gv.numGvec).getD ig 0)
            = false := by
          simpa using Ne.symm hne
        rw [hb] at hsh0
        simp at hsh0
      · intro hig0
        subst hig0
        exact hshell0

theorem C6_shell_order_witness :
    List.Pairwise (fun a b => qleb a b = true) tinyGv.gvecShellLen ∧
    (qvecZero = qvecZero → 0 < tinyGv.numGvec →
      tinyGv.gvecShellLen.getD 0 qzero = qzero ∧
      tinyGv.gvecShell.getD 0 0 = 0 ∧
      ((∀ ig, ig < tinyGv.numGvec → ig ≠ 0 →
          lenKey (qnormSq (gkCartOf qvecZero idMat tinyGv.zColumns tinyGv.gvecFullIndex ig))
            ≠ 0) →
        ∀ ig, ig < tinyGv.numGvec → (tinyGv.gvecShell.getD ig 0 = 0 ↔ ig = 0))) :=
  C6_shell_order qvecZero idMat (qofInt 1) tinyGrid 1 ⟨1, 0⟩ false tinyGv (by decide)
